import Mathlib

/-!
Shallow embedding of the lodis collection engines (List, Map, ArrayMap and the
collection `remove` protocol), translated from `src/lodisdb/src/list.rs`,
`map.rs`, `arraymap.rs`, `data.rs`, `utils.rs` and `common.rs`.

Modelling conventions:
* A stored byte string is a `List Nat` (each entry one byte).
* The key/value store under one collection's 9-byte key space is modelled per
  logical cell: the three metadata cells (`@L`, `@H`, `@T`) are `Option Nat`
  holding the decoded u32 (the engines only ever write canonical 4-byte
  big-endian values there, and an absent cell decodes to the documented
  default), and the element/entry key space is a finite partial map `KV`.
* u32 / u64 / i64 arithmetic is `Nat`/`Int` arithmetic with the explicit
  wrap-around (`% 2^32`, `% 2^64`, `Int.emod`) at the points where the Rust
  code casts or where its branch structure (`if index == MAX_U32 {0} else ..`)
  implements the wrap.
* `rand::thread_rng` (`List::random_index`) is an oracle: the chosen relative
  index is an explicit argument of `pop_random`.
* `siphash` over user keys (`ArrayMap::key_hash`) is external code
  (`std::collections::hash_map::DefaultHasher`); it is a parameter `kh` of the
  ArrayMap operations, with `u64_to_u8x8` applied to its value as in the source.
-/

set_option maxHeartbeats 1000000

/-- `MAX_U32 + 1 = 2^32`; the modulus of the absolute-index ring. -/
def M32 : Nat := 4294967296

/-- `u32::MAX`, as in `common.rs` (`pub const MAX_U32`). -/
def MAX_U32 : Nat := M32 - 1

/-- One byte string as stored in the engine. -/
abbrev Bytes := List Nat

/-- Big-endian byte encoding of the low `w` bytes of `n`
(`utils.rs: u64_to_u8x8 / u32_to_u8x4`, i.e. `to_be_bytes`). -/
def beBytes : Nat → Nat → Bytes
| 0, _ => []
| w+1, n => (n / 256 ^ w) % 256 :: beBytes w n

/-- Big-endian byte decoding (`utils.rs: u8x4_to_u32 / u8x8_to_u64`,
i.e. `from_be_bytes`). -/
def beVal (l : Bytes) : Nat := l.foldl (fun a c => a * 256 + c) 0

theorem beBytes_length (w n : Nat) : (beBytes w n).length = w := by
  induction w generalizing n with
  | zero => rfl
  | succ w ih => simp [beBytes, ih]

theorem beVal_aux (l : Bytes) (a : Nat) :
    l.foldl (fun a c => a * 256 + c) a = a * 256 ^ l.length + beVal l := by
  induction l generalizing a with
  | nil => simp [beVal]
  | cons c t ih =>
    simp only [List.foldl_cons, List.length_cons, beVal]
    rw [ih, ih (0 * 256 + c)]
    ring

theorem beVal_beBytes (w n : Nat) : beVal (beBytes w n) = n % 256 ^ w := by
  induction w generalizing n with
  | zero => simp [beBytes, beVal, Nat.mod_one]
  | succ w ih =>
    show beVal ((n / 256 ^ w) % 256 :: beBytes w n) = n % 256 ^ (w + 1)
    have h1 : beVal ((n / 256 ^ w) % 256 :: beBytes w n)
        = ((n / 256 ^ w) % 256) * 256 ^ w + beVal (beBytes w n) := by
      simp only [beVal, List.foldl_cons]
      rw [beVal_aux, beBytes_length]
      simp [beVal]
    rw [h1, ih]
    have h2 : 256 ^ (w + 1) = 256 ^ w * 256 := by ring
    rw [h2, Nat.mod_mul]
    ring

theorem beVal_append_beBytes (w n : Nat) (t : Bytes) :
    ((beBytes w n ++ t).take w) = beBytes w n := by
  have h := List.take_left (beBytes w n) t
  rwa [beBytes_length] at h

theorem drop_append_beBytes (w n : Nat) (t : Bytes) :
    ((beBytes w n ++ t).drop w) = t := by
  have h := List.drop_left (beBytes w n) t
  rwa [beBytes_length] at h

/-- A finite partial map, modelling the element/entry key space of one
collection inside the flat store. -/
structure KV (α β : Type) [DecidableEq α] where
  dom : Finset α
  val : α → β

namespace KV

variable {α β : Type} [DecidableEq α]

/-- Point lookup (`DB::get`). -/
def get (s : KV α β) (k : α) : Option β :=
  if k ∈ s.dom then some (s.val k) else none

/-- Point write (`WriteBatch::put` / `DB::put`). -/
def put (s : KV α β) (k : α) (v : β) : KV α β :=
  ⟨insert k s.dom, Function.update s.val k v⟩

/-- Point delete (`WriteBatch::delete` / `DB::delete`). -/
def del (s : KV α β) (k : α) : KV α β :=
  ⟨s.dom.erase k, s.val⟩

def empty (junk : β) : KV α β := ⟨∅, fun _ => junk⟩

@[simp] theorem get_put_self (s : KV α β) (k : α) (v : β) :
    (s.put k v).get k = some v := by
  simp [get, put]

theorem get_put_other (s : KV α β) (k k' : α) (v : β) (h : k' ≠ k) :
    (s.put k v).get k' = s.get k' := by
  simp [get, put, Function.update_noteq h, h]

@[simp] theorem get_del_self (s : KV α β) (k : α) :
    (s.del k).get k = none := by
  simp [get, del]

theorem get_del_other (s : KV α β) (k k' : α) (h : k' ≠ k) :
    (s.del k).get k' = s.get k' := by
  simp [get, del, h]

@[simp] theorem dom_put (s : KV α β) (k : α) (v : β) :
    (s.put k v).dom = insert k s.dom := rfl

@[simp] theorem dom_del (s : KV α β) (k : α) :
    (s.del k).dom = s.dom.erase k := rfl

theorem get_eq_some_iff (s : KV α β) (k : α) (v : β) :
    s.get k = some v ↔ k ∈ s.dom ∧ s.val k = v := by
  unfold get
  by_cases h : k ∈ s.dom <;> simp [h]

theorem get_eq_none_iff (s : KV α β) (k : α) :
    s.get k = none ↔ k ∉ s.dom := by
  unfold get
  by_cases h : k ∈ s.dom <;> simp [h]

end KV

/-- Error kinds of `error.rs: DBError` that the embedded operations can
signal (the store itself never fails in the model). -/
inductive DBErr
  | outOfRange (idx : Nat)
  | isNotNumeric
  | dbValueNotMatch
deriving DecidableEq

/-- State of one `list.rs: List` collection: the three metadata cells and the
element slots keyed by absolute index (`prefix ‖ "$" ‖ absidx`). -/
structure ListState where
  lenCell : Option Nat
  headCell : Option Nat
  tailCell : Option Nat
  slots : KV Nat Bytes

namespace ListState

/-- `List::length` (absent `@L` cell reads as 0). -/
def length (s : ListState) : Nat := s.lenCell.getD 0

/-- `List::head` (absent `@H` cell reads as `MAX_U32`). -/
def head (s : ListState) : Nat := s.headCell.getD MAX_U32

/-- `List::tail` (absent `@T` cell reads as 0). -/
def tail (s : ListState) : Nat := s.tailCell.getD 0

/-- The branch `if index == MAX_U32 { 0 } else { index + 1 }` used by
`push`/`pop_left`/`delete_with_abs_index`. -/
def succ32 (i : Nat) : Nat := if i = MAX_U32 then 0 else i + 1

/-- The branch `if index == 0 { MAX_U32 } else { index - 1 }` used by
`push_left`/`pop`/`delete_with_abs_index`. -/
def pred32 (i : Nat) : Nat := if i = 0 then MAX_U32 else i - 1

theorem succ32_eq_mod (i : Nat) (h : i < M32) : succ32 i = (i + 1) % M32 := by
  unfold succ32 MAX_U32 M32 at *
  split <;> omega

theorem pred32_eq_mod (i : Nat) (h : i < M32) : pred32 i = (i + (M32 - 1)) % M32 := by
  unfold pred32 MAX_U32 M32 at *
  split <;> omega

theorem succ32_lt (i : Nat) (h : i < M32) : succ32 i < M32 := by
  unfold succ32 MAX_U32 M32 at *
  split <;> omega

theorem pred32_lt (i : Nat) (h : i < M32) : pred32 i < M32 := by
  unfold pred32 MAX_U32 M32 at *
  split <;> omega

/-- `List::incr_length`: read the length cell, skip the write when the list is
already empty and the increment is negative, clamp at zero, store as u32. -/
def incr_length (s : ListState) (incr : Int) : ListState :=
  if s.length = 0 ∧ incr < 0 then s
  else { s with lenCell := some ((max ((s.length : Int) + incr) 0).toNat % M32) }

/-- The loop body of `List::push`: put each value at the running index and step
the index with the `MAX_U32` wrap branch.  Returns (indexes, slots, final index). -/
def pushAux (st : KV Nat Bytes) (i : Nat) : List Bytes → List Nat × KV Nat Bytes × Nat
| [] => ([], st, i)
| v :: vs =>
  let r := pushAux (st.put i v) (succ32 i) vs
  (i :: r.1, r.2)

/-- `List::push`: write values rightward from the current tail, then set the
tail cell to the final index and bump the length — one batch. -/
def push (s : ListState) (values : List Bytes) : List Nat × ListState :=
  let r := pushAux s.slots s.tail values
  (r.1,
    ({ s with slots := r.2.1, tailCell := some r.2.2 } : ListState).incr_length
      (values.length : Int))

/-- The loop body of `List::push_left` (leftward, with the 0 wrap branch). -/
def pushLeftAux (st : KV Nat Bytes) (i : Nat) : List Bytes → List Nat × KV Nat Bytes × Nat
| [] => ([], st, i)
| v :: vs =>
  let r := pushLeftAux (st.put i v) (pred32 i) vs
  (i :: r.1, r.2)

/-- `List::push_left`: write values leftward from the current head, then set
the head cell to the final index and bump the length — one batch. -/
def push_left (s : ListState) (values : List Bytes) : List Nat × ListState :=
  let r := pushLeftAux s.slots s.head values
  (r.1,
    ({ s with slots := r.2.1, headCell := some r.2.2 } : ListState).incr_length
      (values.length : Int))

/-- `List::abs_index`: translate a relative i64 index to an absolute slot.
The Rust `%` on i64 followed by the `as u32` cast of the (possibly negative)
remainder is `Int.emod`. -/
def abs_index (s : ListState) (index : Int) : Nat :=
  if 0 ≤ index then
    let h := s.head
    let first : Nat := if h = MAX_U32 then 0 else h + 1
    (((first : Int) + index) % (M32 : Int)).toNat
  else
    let t := s.tail
    let last : Nat := if t = 0 then MAX_U32 else t - 1
    (((last : Int) + index + 1) % (M32 : Int)).toNat

/-- `List::index`: read the slot at the translated absolute index. -/
def index (s : ListState) (i : Int) : Option Bytes :=
  s.slots.get (s.abs_index i)

/-- `List::index_with_abs`: direct slot read. -/
def index_with_abs (s : ListState) (a : Nat) : Option Bytes :=
  s.slots.get a

/-- `List::set_by_absindex`: boundary-check the index against the two window
shapes, then overwrite the slot. -/
def set_by_absindex (s : ListState) (a : Nat) (v : Bytes) : Except DBErr ListState :=
  let h := s.head
  let t := s.tail
  if h < t then
    if a ≤ h ∨ t ≤ a then .error (.outOfRange a)
    else .ok { s with slots := s.slots.put a v }
  else
    if a ≤ h ∧ t ≤ a then .error (.outOfRange a)
    else .ok { s with slots := s.slots.put a v }

/-- `List::pop`: read the element left of the tail, then in one batch delete
it, retract the tail and decrement the length. -/
def pop (s : ListState) : Option Bytes × ListState :=
  if s.length = 0 then (none, s)
  else
    let i := pred32 s.tail
    let v := s.slots.get i
    (v, ({ s with slots := s.slots.del i, tailCell := some i } : ListState).incr_length (-1))

/-- `List::pop_left`: read the element right of the head, then in one batch
delete it, advance the head and decrement the length. -/
def pop_left (s : ListState) : Option Bytes × ListState :=
  if s.length = 0 then (none, s)
  else
    let i := succ32 s.head
    let v := s.slots.get i
    (v, ({ s with slots := s.slots.del i, headCell := some i } : ListState).incr_length (-1))

/-- `List::delete_with_abs_index`: no-op on an empty slot; otherwise delete the
boundary slot directly, or swap-delete a mid-window slot by moving the first
element's value into it and advancing the head. -/
def delete_with_abs_index (s : ListState) (a : Nat) : ListState :=
  match s.slots.get a with
  | none => s
  | some _ =>
    let first := succ32 s.head
    let last := pred32 s.tail
    if a = first then
      ({ s with slots := s.slots.del a, headCell := some a } : ListState).incr_length (-1)
    else if a = last then
      ({ s with slots := s.slots.del a, tailCell := some a } : ListState).incr_length (-1)
    else
      let fv := (s.slots.get first).getD []
      ({ s with slots := (s.slots.del first).put a fv,
                headCell := some first } : ListState).incr_length (-1)

/-- `List::delete`: relative-index deletion via `abs_index`. -/
def delete (s : ListState) (i : Int) : ListState :=
  s.delete_with_abs_index (s.abs_index i)

/-- `List::pop_random` with the oracle choice `c` standing for the index that
`random_index` produced: read `index(c)` and, when present, `delete(c)`. -/
def pop_random (s : ListState) (c : Nat) : Option Bytes × ListState :=
  match s.index (c : Int) with
  | none => (none, s)
  | some v => (some v, s.delete (c : Int))

end ListState

/-- The freshly-created (never written) list key space. -/
def listEmpty : ListState := ⟨none, none, none, KV.empty []⟩

namespace ListState

/-! ### The live window determined by the two cursors -/

/-- The number of live slots bracketed by cursors `h` and `t`:
`(t - h - 1) mod 2^32`. -/
def winLen (h t : Nat) : Nat := (t + M32 - (h + 1)) % M32

/-- The open ring interval `(h, t)` of absolute indices: the `winLen h t`
slots starting one step right of `h`. -/
def window (h t : Nat) : Finset Nat :=
  (Finset.range (winLen h t)).image (fun j => (h + 1 + j) % M32)

theorem winLen_lt (h t : Nat) : winLen h t < M32 := by
  unfold winLen M32
  omega

theorem mem_window {h t x : Nat} :
    x ∈ window h t ↔ ∃ j, j < winLen h t ∧ (h + 1 + j) % M32 = x := by
  unfold window
  simp [Finset.mem_image, Finset.mem_range]

theorem window_card (h t : Nat) : (window h t).card = winLen h t := by
  unfold window
  rw [Finset.card_image_of_injOn, Finset.card_range]
  intro a ha b hb hab
  simp only [Finset.coe_range, Set.mem_Iio] at ha hb
  dsimp only at hab
  have hl := winLen_lt h t
  unfold M32 at *
  omega

theorem window_mem_lt {h t x : Nat} (hx : x ∈ window h t) : x < M32 := by
  rcases mem_window.mp hx with ⟨j, _, rfl⟩
  unfold M32
  omega

theorem window_nonempty_len {h t x : Nat} (hx : x ∈ window h t) : 1 ≤ winLen h t := by
  rcases mem_window.mp hx with ⟨j, hj, _⟩
  omega

/-! ### Characterizing the push loops -/

/-- Indices written by `n` rightward steps starting at cursor `i`. -/
def pushedIdx (i n : Nat) : Finset Nat :=
  (Finset.range n).image (fun j => (i + j) % M32)

/-- Indices written by `n` leftward steps starting at cursor `i`
(`M32 - 1 ≡ -1` on the ring). -/
def pushedIdxL (i n : Nat) : Finset Nat :=
  (Finset.range n).image (fun j => (i + j * (M32 - 1)) % M32)

theorem pushAux_final (st : KV Nat Bytes) (i : Nat) (vs : List Bytes) (h : i < M32) :
    (pushAux st i vs).2.2 = (i + vs.length) % M32 := by
  induction vs generalizing st i with
  | nil =>
    simp only [pushAux, List.length_nil, Nat.add_zero]
    unfold M32 at *
    omega
  | cons v vs ih =>
    simp only [pushAux, List.length_cons]
    rw [ih _ _ (succ32_lt i h), succ32_eq_mod i h, Nat.mod_add_mod]
    congr 1
    omega

theorem pushAux_dom (st : KV Nat Bytes) (i : Nat) (vs : List Bytes) (h : i < M32) :
    (pushAux st i vs).2.1.dom = st.dom ∪ pushedIdx i vs.length := by
  induction vs generalizing st i with
  | nil => simp [pushAux, pushedIdx]
  | cons v vs ih =>
    simp only [pushAux, List.length_cons]
    rw [ih _ _ (succ32_lt i h)]
    have he : pushedIdx (succ32 i) vs.length = pushedIdx (i + 1) vs.length := by
      unfold pushedIdx
      apply Finset.image_congr
      intro j _
      dsimp only
      rw [succ32_eq_mod i h, Nat.mod_add_mod]
    rw [he]
    have hi : pushedIdx i (vs.length + 1) = insert i (pushedIdx (i + 1) vs.length) := by
      unfold pushedIdx
      ext x
      simp only [Finset.mem_image, Finset.mem_range, Finset.mem_insert]
      constructor
      · rintro ⟨j, hj, rfl⟩
        rcases j with _ | j
        · left
          unfold M32 at *
          omega
        · right
          exact ⟨j, by omega, by congr 1; omega⟩
      · rintro (rfl | ⟨j, hj, rfl⟩)
        · exact ⟨0, by omega, by unfold M32 at *; omega⟩
        · exact ⟨j + 1, by omega, by congr 1; omega⟩
    rw [hi, KV.dom_put, Finset.insert_union, Finset.union_insert]

theorem pushLeftAux_final (st : KV Nat Bytes) (i : Nat) (vs : List Bytes) (h : i < M32) :
    (pushLeftAux st i vs).2.2 = (i + vs.length * (M32 - 1)) % M32 := by
  induction vs generalizing st i with
  | nil =>
    simp only [pushLeftAux, List.length_nil, Nat.zero_mul, Nat.add_zero]
    unfold M32 at *
    omega
  | cons v vs ih =>
    simp only [pushLeftAux, List.length_cons]
    rw [ih _ _ (pred32_lt i h), pred32_eq_mod i h, Nat.mod_add_mod]
    congr 1
    ring

theorem pushLeftAux_dom (st : KV Nat Bytes) (i : Nat) (vs : List Bytes) (h : i < M32) :
    (pushLeftAux st i vs).2.1.dom = st.dom ∪ pushedIdxL i vs.length := by
  induction vs generalizing st i with
  | nil => simp [pushLeftAux, pushedIdxL]
  | cons v vs ih =>
    simp only [pushLeftAux, List.length_cons]
    rw [ih _ _ (pred32_lt i h)]
    have he : pushedIdxL (pred32 i) vs.length = pushedIdxL (i + (M32 - 1)) vs.length := by
      unfold pushedIdxL
      apply Finset.image_congr
      intro j _
      dsimp only
      rw [pred32_eq_mod i h, Nat.mod_add_mod]
    rw [he]
    have hi : pushedIdxL i (vs.length + 1)
        = insert i (pushedIdxL (i + (M32 - 1)) vs.length) := by
      unfold pushedIdxL
      ext x
      simp only [Finset.mem_image, Finset.mem_range, Finset.mem_insert]
      constructor
      · rintro ⟨j, hj, rfl⟩
        rcases j with _ | j
        · left
          unfold M32 at *
          omega
        · right
          refine ⟨j, by omega, ?_⟩
          unfold M32 at *
          omega
      · rintro (rfl | ⟨j, hj, rfl⟩)
        · exact ⟨0, by omega, by unfold M32 at *; omega⟩
        · refine ⟨j + 1, by omega, ?_⟩
          unfold M32 at *
          omega
    rw [hi, KV.dom_put, Finset.insert_union, Finset.union_insert]

/-! ### incr_length unfoldings -/

theorem incr_length_headCell (s : ListState) (incr : Int) :
    (s.incr_length incr).headCell = s.headCell := by
  unfold incr_length
  split <;> rfl

theorem incr_length_tailCell (s : ListState) (incr : Int) :
    (s.incr_length incr).tailCell = s.tailCell := by
  unfold incr_length
  split <;> rfl

theorem incr_length_slots (s : ListState) (incr : Int) :
    (s.incr_length incr).slots = s.slots := by
  unfold incr_length
  split <;> rfl

theorem incr_length_len_add (s : ListState) (n : Nat) :
    (s.incr_length (n : Int)).length = (s.length + n) % M32 := by
  unfold incr_length
  split
  · rename_i hc
    exfalso
    omega
  · show (Option.some _).getD 0 = _
    simp only [Option.getD_some]
    congr 1
    omega

theorem incr_length_len_sub_one (s : ListState) (h1 : 1 ≤ s.length) :
    (s.incr_length (-1)).length = (s.length - 1) % M32 := by
  unfold incr_length
  split
  · rename_i hc
    exfalso
    omega
  · show (Option.some _).getD 0 = _
    simp only [Option.getD_some]
    congr 1
    omega

end ListState

namespace ListState

/-! ### State-level characterizations of push and push_left -/

theorem push_headCell (s : ListState) (vs : List Bytes) :
    (s.push vs).2.headCell = s.headCell := by
  unfold push
  rw [incr_length_headCell]

theorem push_tailCell (s : ListState) (vs : List Bytes) (ht : s.tail < M32) :
    (s.push vs).2.tailCell = some ((s.tail + vs.length) % M32) := by
  unfold push
  rw [incr_length_tailCell]
  simp only
  rw [pushAux_final _ _ _ ht]

theorem push_dom (s : ListState) (vs : List Bytes) (ht : s.tail < M32) :
    (s.push vs).2.slots.dom = s.slots.dom ∪ pushedIdx s.tail vs.length := by
  unfold push
  rw [incr_length_slots]
  simp only
  rw [pushAux_dom _ _ _ ht]

theorem push_length (s : ListState) (vs : List Bytes) :
    (s.push vs).2.length = (s.length + vs.length) % M32 := by
  unfold push
  rw [incr_length_len_add]
  rfl

theorem push_left_tailCell (s : ListState) (vs : List Bytes) :
    (s.push_left vs).2.tailCell = s.tailCell := by
  unfold push_left
  rw [incr_length_tailCell]

theorem push_left_headCell (s : ListState) (vs : List Bytes) (hh : s.head < M32) :
    (s.push_left vs).2.headCell = some ((s.head + vs.length * (M32 - 1)) % M32) := by
  unfold push_left
  rw [incr_length_headCell]
  simp only
  rw [pushLeftAux_final _ _ _ hh]

theorem push_left_dom (s : ListState) (vs : List Bytes) (hh : s.head < M32) :
    (s.push_left vs).2.slots.dom = s.slots.dom ∪ pushedIdxL s.head vs.length := by
  unfold push_left
  rw [incr_length_slots]
  simp only
  rw [pushLeftAux_dom _ _ _ hh]

theorem push_left_length (s : ListState) (vs : List Bytes) :
    (s.push_left vs).2.length = (s.length + vs.length) % M32 := by
  unfold push_left
  rw [incr_length_len_add]
  rfl

/-! ### How the window moves under each cursor update -/

theorem winLen_push (h t n : Nat) (hh : h < M32) (ht : t < M32)
    (hb : winLen h t + n < M32) : winLen h ((t + n) % M32) = winLen h t + n := by
  unfold winLen M32 at *
  omega

theorem window_push (h t n : Nat) (hh : h < M32) (ht : t < M32)
    (hb : winLen h t + n < M32) :
    window h ((t + n) % M32) = window h t ∪ pushedIdx t n := by
  ext x
  simp only [window, pushedIdx, Finset.mem_union, Finset.mem_image, Finset.mem_range]
  rw [winLen_push h t n hh ht hb]
  constructor
  · rintro ⟨j, hj, rfl⟩
    by_cases hc : j < winLen h t
    · exact Or.inl ⟨j, hc, rfl⟩
    · refine Or.inr ⟨j - winLen h t, by omega, ?_⟩
      unfold winLen M32 at *
      omega
  · rintro (⟨j, hj, rfl⟩ | ⟨j, hj, rfl⟩)
    · exact ⟨j, by omega, rfl⟩
    · refine ⟨winLen h t + j, by omega, ?_⟩
      unfold winLen M32 at *
      omega

theorem winLen_pushL (h t n : Nat) (hh : h < M32) (ht : t < M32)
    (hb : winLen h t + n < M32) :
    winLen ((h + n * (M32 - 1)) % M32) t = winLen h t + n := by
  unfold winLen M32 at *
  omega

theorem window_pushL (h t n : Nat) (hh : h < M32) (ht : t < M32)
    (hb : winLen h t + n < M32) :
    window ((h + n * (M32 - 1)) % M32) t = window h t ∪ pushedIdxL h n := by
  ext x
  simp only [window, pushedIdxL, Finset.mem_union, Finset.mem_image, Finset.mem_range]
  rw [winLen_pushL h t n hh ht hb]
  constructor
  · rintro ⟨j, hj, rfl⟩
    by_cases hc : j < n
    · refine Or.inr ⟨n - 1 - j, by omega, ?_⟩
      unfold winLen M32 at *
      omega
    · refine Or.inl ⟨j - n, by omega, ?_⟩
      unfold winLen M32 at *
      omega
  · rintro (⟨j, hj, rfl⟩ | ⟨j, hj, rfl⟩)
    · refine ⟨j + n, by omega, ?_⟩
      unfold winLen M32 at *
      omega
    · refine ⟨n - 1 - j, by omega, ?_⟩
      unfold winLen M32 at *
      omega

theorem winLen_headAdv (h t : Nat) (hh : h < M32) (ht : t < M32)
    (hl : 1 ≤ winLen h t) : winLen (succ32 h) t = winLen h t - 1 := by
  rw [succ32_eq_mod h hh]
  unfold winLen M32 at *
  omega

theorem window_headAdv (h t : Nat) (hh : h < M32) (ht : t < M32)
    (hl : 1 ≤ winLen h t) :
    window (succ32 h) t = (window h t).erase (succ32 h) := by
  have hs := succ32_eq_mod h hh
  ext x
  simp only [window, Finset.mem_erase, Finset.mem_image, Finset.mem_range]
  rw [winLen_headAdv h t hh ht hl, hs]
  have hwl := winLen_lt h t
  constructor
  · rintro ⟨j, hj, rfl⟩
    refine ⟨?_, j + 1, by omega, ?_⟩
    · unfold winLen M32 at *
      omega
    · unfold winLen M32 at *
      omega
  · rintro ⟨hne, j, hj, rfl⟩
    rcases j with _ | j
    · exfalso
      apply hne
      unfold M32 at *
      omega
    · refine ⟨j, by omega, ?_⟩
      unfold M32 at *
      omega

theorem winLen_tailRet (h t : Nat) (hh : h < M32) (ht : t < M32)
    (hl : 1 ≤ winLen h t) : winLen h (pred32 t) = winLen h t - 1 := by
  rw [pred32_eq_mod t ht]
  unfold winLen M32 at *
  omega

theorem last_index_eq (h t : Nat) (hh : h < M32) (ht : t < M32)
    (hl : 1 ≤ winLen h t) : (h + 1 + (winLen h t - 1)) % M32 = pred32 t := by
  rw [pred32_eq_mod t ht]
  unfold winLen M32 at *
  omega

theorem window_tailRet (h t : Nat) (hh : h < M32) (ht : t < M32)
    (hl : 1 ≤ winLen h t) :
    window h (pred32 t) = (window h t).erase (pred32 t) := by
  have hp := pred32_eq_mod t ht
  ext x
  simp only [window, Finset.mem_erase, Finset.mem_image, Finset.mem_range]
  rw [winLen_tailRet h t hh ht hl]
  have hwl := winLen_lt h t
  constructor
  · rintro ⟨j, hj, rfl⟩
    refine ⟨?_, j, by omega, rfl⟩
    rw [hp]
    unfold winLen M32 at *
    omega
  · rintro ⟨hne, j, hj, rfl⟩
    refine ⟨j, ?_, rfl⟩
    rcases Nat.lt_or_ge j (winLen h t - 1) with hc | hc
    · exact hc
    · exfalso
      apply hne
      rw [hp]
      unfold winLen M32 at *
      omega

theorem first_mem_window (h t : Nat) (hh : h < M32) (hl : 1 ≤ winLen h t) :
    succ32 h ∈ window h t := by
  rw [mem_window]
  refine ⟨0, hl, ?_⟩
  rw [succ32_eq_mod h hh]

theorem last_mem_window (h t : Nat) (hh : h < M32) (ht : t < M32)
    (hl : 1 ≤ winLen h t) : pred32 t ∈ window h t := by
  rw [mem_window]
  exact ⟨winLen h t - 1, by omega, last_index_eq h t hh ht hl⟩

end ListState

namespace ListState

/-! ### The List window invariant -/

/-- The List window invariant: cursors are genuine u32 values, the stored
length is the cursor distance, and the occupied slots are exactly the open
ring interval between the cursors. -/
def ListInv (s : ListState) : Prop :=
  s.head < M32 ∧ s.tail < M32 ∧ s.length = winLen s.head s.tail ∧
    s.slots.dom = window s.head s.tail

instance (s : ListState) : Decidable (ListInv s) := by
  unfold ListInv
  infer_instance

theorem listEmpty_inv : ListInv listEmpty := by decide

theorem ListInv_push (s : ListState) (vs : List Bytes) (hinv : ListInv s)
    (hb : s.length + vs.length < M32) : ListInv (s.push vs).2 := by
  obtain ⟨hh, ht, hlen, hdom⟩ := hinv
  have hh2 : (s.push vs).2.head = s.head := by
    unfold head
    rw [push_headCell]
  have ht2 : (s.push vs).2.tail = (s.tail + vs.length) % M32 := by
    unfold tail
    rw [push_tailCell s vs ht]
    rfl
  refine ⟨?_, ?_, ?_, ?_⟩
  · rw [hh2]; exact hh
  · rw [ht2]; unfold M32; omega
  · rw [push_length, hh2, ht2, winLen_push s.head s.tail vs.length hh ht (by omega)]
    unfold M32 at *
    omega
  · rw [push_dom s vs ht, hh2, ht2, window_push s.head s.tail vs.length hh ht (by omega), hdom]

theorem ListInv_push_left (s : ListState) (vs : List Bytes) (hinv : ListInv s)
    (hb : s.length + vs.length < M32) : ListInv (s.push_left vs).2 := by
  obtain ⟨hh, ht, hlen, hdom⟩ := hinv
  have ht2 : (s.push_left vs).2.tail = s.tail := by
    unfold tail
    rw [push_left_tailCell]
  have hh2 : (s.push_left vs).2.head = (s.head + vs.length * (M32 - 1)) % M32 := by
    unfold head
    rw [push_left_headCell s vs hh]
    rfl
  refine ⟨?_, ?_, ?_, ?_⟩
  · rw [hh2]; unfold M32; omega
  · rw [ht2]; exact ht
  · rw [push_left_length, hh2, ht2,
      winLen_pushL s.head s.tail vs.length hh ht (by omega)]
    unfold M32 at *
    omega
  · rw [push_left_dom s vs hh, hh2, ht2,
      window_pushL s.head s.tail vs.length hh ht (by omega), hdom]

theorem ListInv_pop (s : ListState) (hinv : ListInv s) : ListInv (s.pop).2 := by
  obtain ⟨hh, ht, hlen, hdom⟩ := hinv
  unfold pop
  by_cases h0 : s.length = 0
  · simp only [h0, if_pos rfl]
    exact ⟨hh, ht, hlen, hdom⟩
  · rw [if_neg h0]
    simp only
    have hl1 : 1 ≤ winLen s.head s.tail := by omega
    have hwl := winLen_lt s.head s.tail
    set s1 : ListState :=
      { s with slots := s.slots.del (pred32 s.tail), tailCell := some (pred32 s.tail) }
    have e1 : s1.length = s.length := rfl
    have e2 : s1.head = s.head := rfl
    have e3 : s1.tail = pred32 s.tail := rfl
    refine ⟨?_, ?_, ?_, ?_⟩
    · show (s1.incr_length (-1)).head < M32
      unfold head
      rw [incr_length_headCell]
      exact hh
    · show (s1.incr_length (-1)).tail < M32
      unfold tail
      rw [incr_length_tailCell]
      show pred32 s.tail < M32
      exact pred32_lt _ ht
    · have hL : (s1.incr_length (-1)).length = s.length - 1 := by
        rw [incr_length_len_sub_one s1 (by rw [e1]; omega), e1]
        unfold M32 at *
        omega
      rw [hL]
      have hface : (s1.incr_length (-1)).head = s.head := by
        unfold head
        rw [incr_length_headCell]
      have hface2 : (s1.incr_length (-1)).tail = pred32 s.tail := by
        unfold tail
        rw [incr_length_tailCell]
        rfl
      rw [hface, hface2, winLen_tailRet s.head s.tail hh ht hl1]
      omega
    · have hface : (s1.incr_length (-1)).head = s.head := by
        unfold head
        rw [incr_length_headCell]
      have hface2 : (s1.incr_length (-1)).tail = pred32 s.tail := by
        unfold tail
        rw [incr_length_tailCell]
        rfl
      have hsl : (s1.incr_length (-1)).slots = s1.slots := incr_length_slots _ _
      rw [hsl, hface, hface2, window_tailRet s.head s.tail hh ht hl1]
      show (s.slots.del (pred32 s.tail)).dom = _
      rw [KV.dom_del, hdom]

theorem ListInv_pop_left (s : ListState) (hinv : ListInv s) : ListInv (s.pop_left).2 := by
  obtain ⟨hh, ht, hlen, hdom⟩ := hinv
  unfold pop_left
  by_cases h0 : s.length = 0
  · simp only [h0, if_pos rfl]
    exact ⟨hh, ht, hlen, hdom⟩
  · rw [if_neg h0]
    simp only
    have hl1 : 1 ≤ winLen s.head s.tail := by omega
    have hwl := winLen_lt s.head s.tail
    set s1 : ListState :=
      { s with slots := s.slots.del (succ32 s.head), headCell := some (succ32 s.head) }
    have e1 : s1.length = s.length := rfl
    refine ⟨?_, ?_, ?_, ?_⟩
    · show (s1.incr_length (-1)).head < M32
      unfold head
      rw [incr_length_headCell]
      show succ32 s.head < M32
      exact succ32_lt _ hh
    · show (s1.incr_length (-1)).tail < M32
      unfold tail
      rw [incr_length_tailCell]
      exact ht
    · have hL : (s1.incr_length (-1)).length = s.length - 1 := by
        rw [incr_length_len_sub_one s1 (by rw [e1]; omega), e1]
        unfold M32 at *
        omega
      rw [hL]
      have hface : (s1.incr_length (-1)).head = succ32 s.head := by
        unfold head
        rw [incr_length_headCell]
        rfl
      have hface2 : (s1.incr_length (-1)).tail = s.tail := by
        unfold tail
        rw [incr_length_tailCell]
      rw [hface, hface2, winLen_headAdv s.head s.tail hh ht hl1]
      omega
    · have hface : (s1.incr_length (-1)).head = succ32 s.head := by
        unfold head
        rw [incr_length_headCell]
        rfl
      have hface2 : (s1.incr_length (-1)).tail = s.tail := by
        unfold tail
        rw [incr_length_tailCell]
      have hsl : (s1.incr_length (-1)).slots = s1.slots := incr_length_slots _ _
      rw [hsl, hface, hface2, window_headAdv s.head s.tail hh ht hl1]
      show (s.slots.del (succ32 s.head)).dom = _
      rw [KV.dom_del, hdom]

end ListState

namespace ListState

/-! ### Branch unfoldings of delete_with_abs_index -/

theorem delete_abs_not_mem (s : ListState) (a : Nat) (h : s.slots.get a = none) :
    s.delete_with_abs_index a = s := by
  unfold delete_with_abs_index
  rw [h]

theorem delete_abs_eq_first (s : ListState) (a : Nat) (w : Bytes)
    (hg : s.slots.get a = some w) (hf : a = succ32 s.head) :
    s.delete_with_abs_index a =
      ({ s with slots := s.slots.del a, headCell := some a } : ListState).incr_length (-1) := by
  subst hf
  unfold delete_with_abs_index
  rw [hg]
  simp

theorem delete_abs_eq_last (s : ListState) (a : Nat) (w : Bytes)
    (hg : s.slots.get a = some w) (hf : a ≠ succ32 s.head) (hl : a = pred32 s.tail) :
    s.delete_with_abs_index a =
      ({ s with slots := s.slots.del a, tailCell := some a } : ListState).incr_length (-1) := by
  subst hl
  unfold delete_with_abs_index
  rw [hg]
  rw [if_neg hf]
  simp

theorem delete_abs_mid (s : ListState) (a : Nat) (w : Bytes)
    (hg : s.slots.get a = some w) (hf : a ≠ succ32 s.head) (hl : a ≠ pred32 s.tail) :
    s.delete_with_abs_index a =
      ({ s with
          slots := (s.slots.del (succ32 s.head)).put a
            ((s.slots.get (succ32 s.head)).getD []),
          headCell := some (succ32 s.head) } : ListState).incr_length (-1) := by
  unfold delete_with_abs_index
  rw [hg]
  simp only [if_neg hf, if_neg hl]

/-! ### delete_with_abs_index preserves the window invariant -/

theorem ListInv_delete_abs (s : ListState) (a : Nat) (hinv : ListInv s) :
    ListInv (s.delete_with_abs_index a) := by
  obtain ⟨hh, ht, hlen, hdom⟩ := hinv
  rcases hg : s.slots.get a with _ | w
  · rw [delete_abs_not_mem s a hg]
    exact ⟨hh, ht, hlen, hdom⟩
  · have hamem : a ∈ window s.head s.tail := by
      rw [← hdom]
      exact ((KV.get_eq_some_iff _ _ _).mp hg).1
    have hl1 : 1 ≤ winLen s.head s.tail := window_nonempty_len hamem
    have hwl := winLen_lt s.head s.tail
    by_cases hf : a = succ32 s.head
    · rw [delete_abs_eq_first s a w hg hf]
      set s1 : ListState :=
        { s with slots := s.slots.del a, headCell := some a }
      have e1 : s1.length = s.length := rfl
      have fh : (s1.incr_length (-1)).head = a := by
        unfold head
        rw [incr_length_headCell]
        rfl
      have ft : (s1.incr_length (-1)).tail = s.tail := by
        unfold tail
        rw [incr_length_tailCell]
      have fsl : (s1.incr_length (-1)).slots = s1.slots := incr_length_slots _ _
      have hL : (s1.incr_length (-1)).length = s.length - 1 := by
        rw [incr_length_len_sub_one s1 (by rw [e1]; omega), e1]
        unfold M32 at *
        omega
      refine ⟨?_, ?_, ?_, ?_⟩
      · rw [fh, hf]
        exact succ32_lt _ hh
      · rw [ft]
        exact ht
      · rw [hL, fh, ft, hf, winLen_headAdv s.head s.tail hh ht hl1]
        omega
      · rw [fsl, fh, ft]
        show (s.slots.del a).dom = window a s.tail
        rw [KV.dom_del, hdom, hf, window_headAdv s.head s.tail hh ht hl1]
    · by_cases hlst : a = pred32 s.tail
      · rw [delete_abs_eq_last s a w hg hf hlst]
        set s1 : ListState :=
          { s with slots := s.slots.del a, tailCell := some a }
        have e1 : s1.length = s.length := rfl
        have fh : (s1.incr_length (-1)).head = s.head := by
          unfold head
          rw [incr_length_headCell]
        have ft : (s1.incr_length (-1)).tail = a := by
          unfold tail
          rw [incr_length_tailCell]
          rfl
        have fsl : (s1.incr_length (-1)).slots = s1.slots := incr_length_slots _ _
        have hL : (s1.incr_length (-1)).length = s.length - 1 := by
          rw [incr_length_len_sub_one s1 (by rw [e1]; omega), e1]
          unfold M32 at *
          omega
        refine ⟨?_, ?_, ?_, ?_⟩
        · rw [fh]
          exact hh
        · rw [ft, hlst]
          exact pred32_lt _ ht
        · rw [hL, fh, ft, hlst, winLen_tailRet s.head s.tail hh ht hl1]
          omega
        · rw [fsl, fh, ft]
          show (s.slots.del a).dom = window s.head a
          rw [KV.dom_del, hdom, hlst, window_tailRet s.head s.tail hh ht hl1]
      · rw [delete_abs_mid s a w hg hf hlst]
        set s1 : ListState :=
          { s with
              slots := (s.slots.del (succ32 s.head)).put a
                ((s.slots.get (succ32 s.head)).getD []),
              headCell := some (succ32 s.head) }
        have e1 : s1.length = s.length := rfl
        have fh : (s1.incr_length (-1)).head = succ32 s.head := by
          unfold head
          rw [incr_length_headCell]
          rfl
        have ft : (s1.incr_length (-1)).tail = s.tail := by
          unfold tail
          rw [incr_length_tailCell]
        have fsl : (s1.incr_length (-1)).slots = s1.slots := incr_length_slots _ _
        have hL : (s1.incr_length (-1)).length = s.length - 1 := by
          rw [incr_length_len_sub_one s1 (by rw [e1]; omega), e1]
          unfold M32 at *
          omega
        refine ⟨?_, ?_, ?_, ?_⟩
        · rw [fh]
          exact succ32_lt _ hh
        · rw [ft]
          exact ht
        · rw [hL, fh, ft, winLen_headAdv s.head s.tail hh ht hl1]
          omega
        · rw [fsl, fh, ft]
          show ((s.slots.del (succ32 s.head)).put a _).dom = window (succ32 s.head) s.tail
          rw [KV.dom_put, KV.dom_del, hdom, window_headAdv s.head s.tail hh ht hl1]
          apply Finset.insert_eq_self.mpr
          exact Finset.mem_erase.mpr ⟨hf, hamem⟩

theorem ListInv_delete (s : ListState) (i : Int) (hinv : ListInv s) :
    ListInv (s.delete i) :=
  ListInv_delete_abs s (s.abs_index i) hinv

theorem ListInv_pop_random (s : ListState) (c : Nat) (hinv : ListInv s) :
    ListInv (s.pop_random c).2 := by
  unfold pop_random
  rcases h : s.index (c : Int) with _ | v
  · exact hinv
  · exact ListInv_delete s (c : Int) hinv

end ListState

namespace ListState

/-! ### Sequences of public List operations -/

/-- One public mutating List operation (the set quantified over by the
window-consistency property). -/
inductive LOp
  | push (values : List Bytes)
  | push_left (values : List Bytes)
  | pop
  | pop_left
  | delete (i : Int)

/-- Run one operation for its state effect. -/
def applyLOp (s : ListState) : LOp → ListState
  | .push vs => (s.push vs).2
  | .push_left vs => (s.push_left vs).2
  | .pop => (s.pop).2
  | .pop_left => (s.pop_left).2
  | .delete i => s.delete i

def runLOps (s : ListState) (ops : List LOp) : ListState :=
  ops.foldl applyLOp s

/-- The capacity side condition: a push must not grow the list to 2^32
elements (the u32 length cell and the 2^32-slot ring overflow there). -/
def lopSafe (s : ListState) : LOp → Bool
  | .push vs => decide (s.length + vs.length < M32)
  | .push_left vs => decide (s.length + vs.length < M32)
  | _ => true

def safeLOps : ListState → List LOp → Bool
  | _, [] => true
  | s, op :: rest => lopSafe s op && safeLOps (applyLOp s op) rest

theorem ListInv_step (s : ListState) (op : LOp) (hinv : ListInv s)
    (hs : lopSafe s op = true) : ListInv (applyLOp s op) := by
  cases op with
  | push vs =>
    exact ListInv_push s vs hinv (by simpa [lopSafe] using hs)
  | push_left vs =>
    exact ListInv_push_left s vs hinv (by simpa [lopSafe] using hs)
  | pop => exact ListInv_pop s hinv
  | pop_left => exact ListInv_pop_left s hinv
  | delete i => exact ListInv_delete s i hinv

theorem ListInv_run (s : ListState) (ops : List LOp) (hinv : ListInv s)
    (hs : safeLOps s ops = true) : ListInv (runLOps s ops) := by
  induction ops generalizing s with
  | nil => exact hinv
  | cons op rest ih =>
    simp only [safeLOps, Bool.and_eq_true] at hs
    simp only [runLOps, List.foldl_cons]
    exact ih (applyLOp s op) (ListInv_step s op hinv hs.1) hs.2

/-- Pushing `2^32` values from cursor 0 covers every slot of the ring. -/
theorem pushedIdx_zero_full : pushedIdx 0 M32 = Finset.range M32 := by
  unfold pushedIdx
  ext x
  simp only [Finset.mem_image, Finset.mem_range]
  constructor
  · rintro ⟨j, hj, rfl⟩
    unfold M32 at *
    omega
  · intro hx
    refine ⟨x, hx, ?_⟩
    unfold M32 at *
    omega

end ListState

open ListState

/-- C2 (amended with the capacity bound): for every sequence of List
operations `push/push_left/pop/pop_left/delete` applied to an initially empty
List in which no push grows the list to `2^32` elements, afterwards the stored
length cell equals the number of element keys present, and the element keys
present are exactly those at absolute indices in the open ring interval
between head and tail modulo `2^32`. -/
theorem c2_list_window_consistency (ops : List LOp)
    (hsafe : safeLOps listEmpty ops = true) :
    (runLOps listEmpty ops).length = (runLOps listEmpty ops).slots.dom.card ∧
    (runLOps listEmpty ops).slots.dom =
      window (runLOps listEmpty ops).head (runLOps listEmpty ops).tail := by
  have hinv := ListInv_run listEmpty ops listEmpty_inv hsafe
  obtain ⟨hh, ht, hlen, hdom⟩ := hinv
  refine ⟨?_, hdom⟩
  rw [hdom, window_card, hlen]

/-- Witness for C2: a concrete safe operation sequence. -/
theorem c2_list_window_consistency_witness :
    (safeLOps listEmpty
        [LOp.push [[1], [2]], LOp.push_left [[3]], LOp.pop, LOp.delete 0] = true) ∧
    ((runLOps listEmpty
        [LOp.push [[1], [2]], LOp.push_left [[3]], LOp.pop, LOp.delete 0]).length
      = (runLOps listEmpty
        [LOp.push [[1], [2]], LOp.push_left [[3]], LOp.pop, LOp.delete 0]).slots.dom.card ∧
     (runLOps listEmpty
        [LOp.push [[1], [2]], LOp.push_left [[3]], LOp.pop, LOp.delete 0]).slots.dom
      = window
          (runLOps listEmpty
            [LOp.push [[1], [2]], LOp.push_left [[3]], LOp.pop, LOp.delete 0]).head
          (runLOps listEmpty
            [LOp.push [[1], [2]], LOp.push_left [[3]], LOp.pop, LOp.delete 0]).tail) :=
  ⟨by decide, c2_list_window_consistency
    [LOp.push [[1], [2]], LOp.push_left [[3]], LOp.pop, LOp.delete 0] (by decide)⟩

/-- C2 as frozen is false on the code: a single `push` of `2^32` values (an
operation sequence on the initially empty List) overflows the u32 length cell
to 0 while all `2^32` element keys exist, so the stored length does not equal
the number of element keys. -/
theorem c2_list_window_counterexample :
    ¬ ((runLOps listEmpty [LOp.push (List.replicate M32 [])]).length
        = (runLOps listEmpty [LOp.push (List.replicate M32 [])]).slots.dom.card ∧
       (runLOps listEmpty [LOp.push (List.replicate M32 [])]).slots.dom
        = window (runLOps listEmpty [LOp.push (List.replicate M32 [])]).head
            (runLOps listEmpty [LOp.push (List.replicate M32 [])]).tail) := by
  intro hcl
  have e1 : listEmpty.slots.dom = (∅ : Finset Nat) := rfl
  have e2 : listEmpty.tail = 0 := rfl
  have e3 : listEmpty.length = 0 := rfl
  have hrun : runLOps listEmpty [LOp.push (List.replicate M32 [])]
      = (listEmpty.push (List.replicate M32 [])).2 := by
    simp only [runLOps]
    rw [List.foldl_cons, List.foldl_nil]
    simp only [applyLOp]
  have h1 : (runLOps listEmpty [LOp.push (List.replicate M32 [])]).length = 0 := by
    rw [hrun, push_length, List.length_replicate, e3]
    unfold M32
    omega
  have h2 : (runLOps listEmpty [LOp.push (List.replicate M32 [])]).slots.dom.card = M32 := by
    rw [hrun, push_dom _ _ (by rw [e2]; unfold M32; omega), List.length_replicate, e1, e2,
      Finset.empty_union, pushedIdx_zero_full, Finset.card_range]
  rw [h1, h2] at hcl
  have := hcl.1
  unfold M32 at this
  omega

namespace ListState

/-! ### The multiset of stored element values -/

/-- All element values currently stored in the List's slots, with
multiplicity. -/
def valsM (s : ListState) : Multiset Bytes := s.slots.dom.val.map s.slots.val

theorem map_erase_dom (st : KV Nat Bytes) (a : Nat) (ha : a ∈ st.dom) :
    (st.dom.erase a).val.map st.val = (st.dom.val.map st.val).erase (st.val a) := by
  rw [Finset.erase_val]
  have hmem : a ∈ st.dom.val := ha
  conv_rhs => rw [← Multiset.cons_erase hmem]
  rw [Multiset.map_cons, Multiset.erase_cons_head]

theorem map_swap_dom (st : KV Nat Bytes) (a f : Nat) (ha : a ∈ st.dom) (hf : f ∈ st.dom)
    (hne : a ≠ f) :
    (insert a (st.dom.erase f)).val.map (Function.update st.val a (st.val f))
      = (st.dom.val.map st.val).erase (st.val a) := by
  have hins : insert a (st.dom.erase f) = st.dom.erase f :=
    Finset.insert_eq_self.mpr (Finset.mem_erase.mpr ⟨hne, ha⟩)
  rw [hins, Finset.erase_val]
  have hnd : (st.dom.val.erase f).Nodup := st.dom.nodup.erase f
  have hmem_a : a ∈ st.dom.val.erase f := by
    rw [Multiset.mem_erase_of_ne hne]
    exact ha
  have hmem_f : f ∈ st.dom.val := hf
  have hR : ∀ x ∈ (st.dom.val.erase f).erase a, x ≠ a := by
    intro x hx
    intro hxa
    subst hxa
    have := (Multiset.Nodup.mem_erase_iff hnd).mp hx
    exact this.1 rfl
  calc ((st.dom.val.erase f).map (Function.update st.val a (st.val f)))
      = ((a ::ₘ (st.dom.val.erase f).erase a).map (Function.update st.val a (st.val f))) := by
        rw [Multiset.cons_erase hmem_a]
    _ = st.val f ::ₘ ((st.dom.val.erase f).erase a).map (Function.update st.val a (st.val f)) := by
        rw [Multiset.map_cons, Function.update_same]
    _ = st.val f ::ₘ ((st.dom.val.erase f).erase a).map st.val := by
        congr 1
        apply Multiset.map_congr rfl
        intro x hx
        exact Function.update_noteq (hR x hx) _ _
    _ = (st.dom.val.map st.val).erase (st.val a) := by
        conv_rhs => rw [← Multiset.cons_erase hmem_f, ← Multiset.cons_erase hmem_a]
        rw [Multiset.map_cons, Multiset.map_cons, Multiset.cons_swap,
          Multiset.erase_cons_head]

end ListState

/-- C3: on a List state satisfying the window invariant, for every in-window
absolute index `a`, the swap-delete decreases the stored length by exactly 1
and leaves the multiset of stored element values equal to the prior one minus
the deleted element's value; and per branch: when the victim is the first live
slot the batch only deletes it and advances head to it; when it is the last
(and not the first) the batch only deletes it and retracts tail to it; and in
the mid-window case the batch moves the first element's value into the victim
slot, deletes the first slot and advances head to the old first position. -/
theorem c3_swap_delete (s : ListState) (a : Nat) (hinv : ListInv s)
    (hlen : 1 ≤ s.length) (ha : a ∈ window s.head s.tail) :
    ((s.delete_with_abs_index a).length = s.length - 1) ∧
    (valsM (s.delete_with_abs_index a) = (valsM s).erase (s.slots.val a)) ∧
    (a = succ32 s.head →
        (s.delete_with_abs_index a).slots.get a = none ∧
        (s.delete_with_abs_index a).head = a ∧
        (s.delete_with_abs_index a).tail = s.tail ∧
        ∀ x, x ≠ a → (s.delete_with_abs_index a).slots.get x = s.slots.get x) ∧
    (a ≠ succ32 s.head → a = pred32 s.tail →
        (s.delete_with_abs_index a).slots.get a = none ∧
        (s.delete_with_abs_index a).tail = a ∧
        (s.delete_with_abs_index a).head = s.head ∧
        ∀ x, x ≠ a → (s.delete_with_abs_index a).slots.get x = s.slots.get x) ∧
    (a ≠ succ32 s.head → a ≠ pred32 s.tail →
        (s.delete_with_abs_index a).slots.get a = s.slots.get (succ32 s.head) ∧
        (s.delete_with_abs_index a).slots.get (succ32 s.head) = none ∧
        (s.delete_with_abs_index a).head = succ32 s.head ∧
        (s.delete_with_abs_index a).tail = s.tail ∧
        ∀ x, x ≠ a → x ≠ succ32 s.head →
          (s.delete_with_abs_index a).slots.get x = s.slots.get x) := by
  obtain ⟨hh, ht, hlencell, hdom⟩ := hinv
  have hadom : a ∈ s.slots.dom := by rw [hdom]; exact ha
  have hg : s.slots.get a = some (s.slots.val a) := by
    rw [KV.get_eq_some_iff]
    exact ⟨hadom, rfl⟩
  have hwl := winLen_lt s.head s.tail
  by_cases hf : a = succ32 s.head
  · rw [delete_abs_eq_first s a _ hg hf]
    set s1 : ListState := { s with slots := s.slots.del a, headCell := some a }
    have e1 : s1.length = s.length := rfl
    have fsl : (s1.incr_length (-1)).slots = s1.slots := incr_length_slots _ _
    have hL : (s1.incr_length (-1)).length = s.length - 1 := by
      rw [incr_length_len_sub_one s1 (by rw [e1]; omega), e1]
      unfold M32 at *
      omega
    refine ⟨hL, ?_, ?_, ?_, ?_⟩
    · show (s1.incr_length (-1)).slots.dom.val.map (s1.incr_length (-1)).slots.val = _
      rw [fsl]
      show ((s.slots.del a).dom.val.map s.slots.val) = _
      rw [KV.dom_del]
      exact map_erase_dom s.slots a hadom
    · intro _
      refine ⟨?_, ?_, ?_, ?_⟩
      · rw [fsl]
        exact KV.get_del_self _ _
      · unfold head
        rw [incr_length_headCell]
        rfl
      · unfold tail
        rw [incr_length_tailCell]
      · intro x hx
        rw [fsl]
        exact KV.get_del_other _ _ _ hx
    · intro hcon _
      exact absurd hf hcon
    · intro hcon _
      exact absurd hf hcon
  · by_cases hlst : a = pred32 s.tail
    · rw [delete_abs_eq_last s a _ hg hf hlst]
      set s1 : ListState := { s with slots := s.slots.del a, tailCell := some a }
      have e1 : s1.length = s.length := rfl
      have fsl : (s1.incr_length (-1)).slots = s1.slots := incr_length_slots _ _
      have hL : (s1.incr_length (-1)).length = s.length - 1 := by
        rw [incr_length_len_sub_one s1 (by rw [e1]; omega), e1]
        unfold M32 at *
        omega
      refine ⟨hL, ?_, ?_, ?_, ?_⟩
      · show (s1.incr_length (-1)).slots.dom.val.map (s1.incr_length (-1)).slots.val = _
        rw [fsl]
        show ((s.slots.del a).dom.val.map s.slots.val) = _
        rw [KV.dom_del]
        exact map_erase_dom s.slots a hadom
      · intro hcon
        exact absurd hcon hf
      · intro _ _
        refine ⟨?_, ?_, ?_, ?_⟩
        · rw [fsl]
          exact KV.get_del_self _ _
        · unfold tail
          rw [incr_length_tailCell]
          rfl
        · unfold head
          rw [incr_length_headCell]
        · intro x hx
          rw [fsl]
          exact KV.get_del_other _ _ _ hx
      · intro _ hcon
        exact absurd hlst hcon
    · rw [delete_abs_mid s a _ hg hf hlst]
      have hl1 : 1 ≤ winLen s.head s.tail := window_nonempty_len ha
      have hfdom : succ32 s.head ∈ s.slots.dom := by
        rw [hdom]
        exact first_mem_window s.head s.tail hh hl1
      have hfv : (s.slots.get (succ32 s.head)).getD [] = s.slots.val (succ32 s.head) := by
        rw [KV.get_eq_some_iff _ _ _ |>.mpr ⟨hfdom, rfl⟩]
        rfl
      rw [hfv]
      set s1 : ListState :=
        { s with
            slots := (s.slots.del (succ32 s.head)).put a (s.slots.val (succ32 s.head)),
            headCell := some (succ32 s.head) }
      have e1 : s1.length = s.length := rfl
      have fsl : (s1.incr_length (-1)).slots = s1.slots := incr_length_slots _ _
      have hL : (s1.incr_length (-1)).length = s.length - 1 := by
        rw [incr_length_len_sub_one s1 (by rw [e1]; omega), e1]
        unfold M32 at *
        omega
      refine ⟨hL, ?_, ?_, ?_, ?_⟩
      · show (s1.incr_length (-1)).slots.dom.val.map (s1.incr_length (-1)).slots.val = _
        rw [fsl]
        show ((insert a ((s.slots.dom).erase (succ32 s.head))).val.map
          (Function.update s.slots.val a (s.slots.val (succ32 s.head)))) = _
        exact map_swap_dom s.slots a (succ32 s.head) hadom hfdom hf
      · intro hcon
        exact absurd hcon hf
      · intro _ hcon
        exact absurd hcon hlst
      · intro _ _
        refine ⟨?_, ?_, ?_, ?_, ?_⟩
        · rw [fsl]
          show ((s.slots.del (succ32 s.head)).put a _).get a = _
          rw [KV.get_put_self]
          rw [KV.get_eq_some_iff _ _ _ |>.mpr ⟨hfdom, rfl⟩]
        · rw [fsl]
          show ((s.slots.del (succ32 s.head)).put a _).get (succ32 s.head) = _
          rw [KV.get_put_other _ _ _ _ (fun hx => hf hx.symm)]
          exact KV.get_del_self _ _
        · unfold head
          rw [incr_length_headCell]
          rfl
        · unfold tail
          rw [incr_length_tailCell]
        · intro x hxa hxf
          rw [fsl]
          show ((s.slots.del (succ32 s.head)).put a _).get x = _
          rw [KV.get_put_other _ _ _ _ hxa]
          exact KV.get_del_other _ _ _ hxf

/-- A small concrete List state (three pushed elements) used by witnesses. -/
def c3S : ListState := (listEmpty.push [[1], [2], [3]]).2

/-- Witness for C3 at the concrete three-element state and the mid-window
index 1. -/
theorem c3_swap_delete_witness :
    (ListInv c3S ∧ 1 ≤ c3S.length ∧ 1 ∈ window c3S.head c3S.tail) ∧
    (((c3S.delete_with_abs_index 1).length = c3S.length - 1) ∧
     (valsM (c3S.delete_with_abs_index 1) = (valsM c3S).erase (c3S.slots.val 1)) ∧
     (1 = succ32 c3S.head →
         (c3S.delete_with_abs_index 1).slots.get 1 = none ∧
         (c3S.delete_with_abs_index 1).head = 1 ∧
         (c3S.delete_with_abs_index 1).tail = c3S.tail ∧
         ∀ x, x ≠ 1 → (c3S.delete_with_abs_index 1).slots.get x = c3S.slots.get x) ∧
     (1 ≠ succ32 c3S.head → 1 = pred32 c3S.tail →
         (c3S.delete_with_abs_index 1).slots.get 1 = none ∧
         (c3S.delete_with_abs_index 1).tail = 1 ∧
         (c3S.delete_with_abs_index 1).head = c3S.head ∧
         ∀ x, x ≠ 1 → (c3S.delete_with_abs_index 1).slots.get x = c3S.slots.get x) ∧
     (1 ≠ succ32 c3S.head → 1 ≠ pred32 c3S.tail →
         (c3S.delete_with_abs_index 1).slots.get 1 = c3S.slots.get (succ32 c3S.head) ∧
         (c3S.delete_with_abs_index 1).slots.get (succ32 c3S.head) = none ∧
         (c3S.delete_with_abs_index 1).head = succ32 c3S.head ∧
         (c3S.delete_with_abs_index 1).tail = c3S.tail ∧
         ∀ x, x ≠ 1 → x ≠ succ32 c3S.head →
           (c3S.delete_with_abs_index 1).slots.get x = c3S.slots.get x)) :=
  ⟨⟨by decide, by decide, by decide⟩,
   c3_swap_delete c3S 1 (by decide) (by decide) (by decide)⟩

/-- C10: `delete_with_abs_index` on an absolute index whose element key does
not exist returns success (the model is the Ok path) and leaves the entire
List state unchanged: length, head, tail, and every element key keep their
prior values. -/
theorem c10_delete_missing_noop (s : ListState) (a : Nat)
    (h : s.slots.get a = none) : s.delete_with_abs_index a = s :=
  ListState.delete_abs_not_mem s a h

/-- Witness for C10 at a concrete state and an out-of-window index. -/
theorem c10_delete_missing_noop_witness :
    (c3S.slots.get 7 = none) ∧ c3S.delete_with_abs_index 7 = c3S :=
  ⟨by decide, c10_delete_missing_noop c3S 7 (by decide)⟩

/-- C6: `set_by_absindex` signals out-of-range exactly when the index lies at
or outside the head/tail boundary slots (`head < tail`: iff `a ≤ head ∨
a ≥ tail`; `head ≥ tail`: iff `a ≤ head ∧ a ≥ tail`), and otherwise
overwrites the slot at `a` with `v` and changes nothing else. -/
theorem c6_set_by_absindex_boundary (s : ListState) (a : Nat) (v : Bytes) :
    ((s.set_by_absindex a v = Except.error (DBErr.outOfRange a)) ↔
      (if s.head < s.tail then a ≤ s.head ∨ s.tail ≤ a
       else a ≤ s.head ∧ s.tail ≤ a)) ∧
    (¬ (if s.head < s.tail then a ≤ s.head ∨ s.tail ≤ a
        else a ≤ s.head ∧ s.tail ≤ a) →
      ∃ s2, s.set_by_absindex a v = Except.ok s2 ∧
        s2.lenCell = s.lenCell ∧ s2.headCell = s.headCell ∧ s2.tailCell = s.tailCell ∧
        s2.slots.get a = some v ∧
        ∀ x, x ≠ a → s2.slots.get x = s.slots.get x) := by
  constructor
  · unfold set_by_absindex
    by_cases hc : s.head < s.tail
    · rw [if_pos hc, if_pos hc]
      by_cases hd : a ≤ s.head ∨ s.tail ≤ a
      · rw [if_pos hd]
        simp [hd]
      · rw [if_neg hd]
        simp [hd]
    · rw [if_neg hc, if_neg hc]
      by_cases hd : a ≤ s.head ∧ s.tail ≤ a
      · rw [if_pos hd]
        simp [hd]
      · rw [if_neg hd]
        simp [hd]
  · intro hnot
    unfold set_by_absindex
    by_cases hc : s.head < s.tail
    · rw [if_pos hc] at hnot
      rw [if_pos hc, if_neg hnot]
      exact ⟨_, rfl, rfl, rfl, rfl, KV.get_put_self _ _ _,
        fun x hx => KV.get_put_other _ _ _ _ hx⟩
    · rw [if_neg hc] at hnot
      rw [if_neg hc, if_neg hnot]
      exact ⟨_, rfl, rfl, rfl, rfl, KV.get_put_self _ _ _,
        fun x hx => KV.get_put_other _ _ _ _ hx⟩

/-- Witness for C6: the non-error branch at a concrete in-window index. -/
theorem c6_set_by_absindex_boundary_witness :
    (¬ (if c3S.head < c3S.tail then 1 ≤ c3S.head ∨ c3S.tail ≤ 1
        else 1 ≤ c3S.head ∧ c3S.tail ≤ 1)) ∧
    (∃ s2, c3S.set_by_absindex 1 [9] = Except.ok s2 ∧
      s2.lenCell = c3S.lenCell ∧ s2.headCell = c3S.headCell ∧ s2.tailCell = c3S.tailCell ∧
      s2.slots.get 1 = some [9] ∧
      ∀ x, x ≠ 1 → s2.slots.get x = c3S.slots.get x) :=
  ⟨by decide, (c6_set_by_absindex_boundary c3S 1 [9]).2 (by decide)⟩

/-- C5 (amended): `index(i)` reads the slot at absolute index
`((head+1)+i) mod 2^32` when `i ≥ 0` and `((tail−1)+i+1) mod 2^32` when
`i < 0`; under the window invariant every out-of-window slot reads as none,
and in particular every conceptual index `i` with `length ≤ i < 2^32`
returns none.  (The frozen claim's unrestricted `length ≤ i` is false: an
`i ≥ 2^32` wraps back into the window, see the counterexample.) -/
theorem c5_index_addressing (s : ListState) (i : Int) :
    (s.head < M32 → s.tail < M32 →
      s.index i = s.slots.get
        (if 0 ≤ i then ((((s.head : Int) + 1 + i) % (M32 : Int)).toNat)
         else ((((s.tail : Int) - 1 + i + 1) % (M32 : Int)).toNat))) ∧
    (ListInv s → ∀ x, x ∉ window s.head s.tail → s.slots.get x = none) ∧
    (ListInv s → 0 ≤ i → (s.length : Int) ≤ i → i < (M32 : Int) → s.index i = none) := by
  refine ⟨?_, ?_, ?_⟩
  · intro hh ht
    unfold index abs_index
    congr 1
    dsimp only
    by_cases hi : 0 ≤ i
    · rw [if_pos hi, if_pos hi]
      by_cases h0 : s.head = MAX_U32
      · rw [if_pos h0]
        unfold MAX_U32 M32 at *
        push_cast at *
        omega
      · rw [if_neg h0]
        unfold MAX_U32 M32 at *
        push_cast at *
        omega
    · rw [if_neg hi, if_neg hi]
      by_cases h0 : s.tail = 0
      · rw [if_pos h0]
        unfold MAX_U32 M32 at *
        push_cast at *
        omega
      · rw [if_neg h0]
        unfold MAX_U32 M32 at *
        push_cast at *
        omega
  · intro hinv x hx
    obtain ⟨hh, ht, hlen, hdom⟩ := hinv
    rw [KV.get_eq_none_iff, hdom]
    exact hx
  · intro hinv hi0 hil him
    obtain ⟨hh, ht, hlen, hdom⟩ := hinv
    unfold index
    rw [KV.get_eq_none_iff, hdom]
    intro hmem
    rw [mem_window] at hmem
    obtain ⟨j, hj, hx⟩ := hmem
    rw [← hlen] at hj
    unfold abs_index at hx
    dsimp only at hx
    rw [if_pos hi0] at hx
    by_cases h0 : s.head = MAX_U32
    · rw [if_pos h0] at hx
      unfold MAX_U32 M32 at *
      push_cast at *
      omega
    · rw [if_neg h0] at hx
      unfold MAX_U32 M32 at *
      push_cast at *
      omega

/-- Witness for C5 at a concrete state and index. -/
theorem c5_index_addressing_witness :
    (c3S.head < M32 ∧ c3S.tail < M32 ∧ ListInv c3S ∧ (0 : Int) ≤ 5 ∧
      (c3S.length : Int) ≤ 5 ∧ (5 : Int) < (M32 : Int) ∧ 7 ∉ window c3S.head c3S.tail) ∧
    (c3S.index 5 = c3S.slots.get
        (if 0 ≤ (5 : Int) then ((((c3S.head : Int) + 1 + 5) % (M32 : Int)).toNat)
         else ((((c3S.tail : Int) - 1 + 5 + 1) % (M32 : Int)).toNat))) ∧
    (c3S.slots.get 7 = none) ∧
    (c3S.index 5 = none) :=
  ⟨⟨by decide, by decide, by decide, by decide, by decide, by decide, by decide⟩,
   (c5_index_addressing c3S 5).1 (by decide) (by decide),
   (c5_index_addressing c3S 5).2.1 (by decide) 7 (by decide),
   (c5_index_addressing c3S 5).2.2 (by decide) (by decide) (by decide) (by decide)⟩

/-- C5 as frozen is false on the code: after pushing one element (length 1),
`index(2^32)` wraps around the 32-bit ring back to the element and returns it,
although `length ≤ 2^32`. -/
theorem c5_index_counterexample :
    (listEmpty.push [[42]]).2.index (4294967296 : Int) = some [42] ∧
    (((listEmpty.push [[42]]).2.length : Int) ≤ (4294967296 : Int)) := by
  constructor
  · decide
  · decide

/-- C8: on an empty List, `push_left` of one value assigns absolute index
`2^32 − 1` and `push` of one value assigns absolute index 0; and after
`push_left(["b2"])` then `push(["a2"])` on an empty list the stored head is
`2^32 − 2` and the stored tail is 1. -/
theorem c8_wrap_around :
    (∀ v : Bytes, (listEmpty.push_left [v]).1 = [M32 - 1]) ∧
    (∀ v : Bytes, (listEmpty.push [v]).1 = [0]) ∧
    ((listEmpty.push_left [[98, 50]]).2.push [[97, 50]]).2.head = M32 - 2 ∧
    ((listEmpty.push_left [[98, 50]]).2.push [[97, 50]]).2.tail = 1 := by
  refine ⟨fun v => rfl, fun v => rfl, by decide, by decide⟩

/-! ## ASCII decimal codec (`i64::to_string` / `str::parse::<i64>`) -/

/-- ASCII decimal digit test. -/
def isDigit (c : Nat) : Bool := 48 ≤ c && c ≤ 57

/-- Big-endian digits of `n` in ASCII, with `fuel ≥ n` steps. -/
def natDecAux : Nat → Nat → List Nat
  | 0, _ => []
  | fuel+1, n => if n = 0 then [] else natDecAux fuel (n / 10) ++ [n % 10 + 48]

/-- ASCII decimal of a natural number. -/
def natToDec (n : Nat) : Bytes := if n = 0 then [48] else natDecAux n n

/-- `i64::to_string`: ASCII decimal, minus sign for negatives. -/
def intToDec (i : Int) : Bytes :=
  if i < 0 then 45 :: natToDec i.natAbs else natToDec i.toNat

/-- Big-endian value of an ASCII-digit string. -/
def digitsValBE (l : Bytes) : Nat := l.foldl (fun a c => a * 10 + (c - 48)) 0

/-- `str::parse::<i64>`: optional `+`/`-` sign, at least one ASCII digit,
value within the i64 range; anything else fails (bytes that are not valid
UTF-8 cannot be all ASCII digits, so the `from_utf8` failure path is also
a parse failure here). -/
def parseI64 (l : Bytes) : Option Int :=
  match l with
  | [] => none
  | c :: rest =>
    if c = 43 then
      if rest ≠ [] ∧ rest.all isDigit = true ∧ digitsValBE rest ≤ 2 ^ 63 - 1
      then some ((digitsValBE rest : Int)) else none
    else if c = 45 then
      if rest ≠ [] ∧ rest.all isDigit = true ∧ digitsValBE rest ≤ 2 ^ 63
      then some (-(digitsValBE rest : Int)) else none
    else
      if (c :: rest).all isDigit = true ∧ digitsValBE (c :: rest) ≤ 2 ^ 63 - 1
      then some ((digitsValBE (c :: rest) : Int)) else none

theorem digitsValBE_append_one (xs : List Nat) (c : Nat) :
    digitsValBE (xs ++ [c]) = digitsValBE xs * 10 + (c - 48) := by
  unfold digitsValBE
  rw [List.foldl_append]
  rfl

theorem natDecAux_step (fuel n : Nat) (h0 : n ≠ 0) :
    natDecAux (fuel + 1) n = natDecAux fuel (n / 10) ++ [n % 10 + 48] := by
  simp only [natDecAux]
  rw [if_neg h0]

theorem natDecAux_val (fuel n : Nat) (h : n ≤ fuel) :
    digitsValBE (natDecAux fuel n) = n := by
  induction fuel generalizing n with
  | zero =>
    have : n = 0 := by omega
    subst this
    rfl
  | succ fuel ih =>
    by_cases h0 : n = 0
    · subst h0
      simp [natDecAux, digitsValBE]
    · rw [natDecAux_step fuel n h0, digitsValBE_append_one, ih (n / 10) (by omega)]
      omega

theorem natDecAux_digits (fuel n : Nat) :
    ∀ c ∈ natDecAux fuel n, isDigit c = true := by
  induction fuel generalizing n with
  | zero => intro c hc; cases hc
  | succ fuel ih =>
    intro c hc
    by_cases h0 : n = 0
    · subst h0
      simp [natDecAux] at hc
    · rw [natDecAux_step fuel n h0, List.mem_append] at hc
      rcases hc with hc | hc
      · exact ih _ c hc
      · rw [List.mem_singleton] at hc
        subst hc
        have : n % 10 < 10 := by omega
        unfold isDigit
        simp only [Bool.and_eq_true, decide_eq_true_eq]
        omega

theorem natToDec_val (n : Nat) : digitsValBE (natToDec n) = n := by
  unfold natToDec
  by_cases h0 : n = 0
  · rw [if_pos h0, h0]
    rfl
  · rw [if_neg h0]
    exact natDecAux_val n n le_rfl

theorem natToDec_digits (n : Nat) : ∀ c ∈ natToDec n, isDigit c = true := by
  unfold natToDec
  by_cases h0 : n = 0
  · rw [if_pos h0]
    intro c hc
    rw [List.mem_singleton] at hc
    subst hc
    decide
  · rw [if_neg h0]
    exact natDecAux_digits n n

theorem natToDec_ne_nil (n : Nat) : natToDec n ≠ [] := by
  unfold natToDec
  by_cases h0 : n = 0
  · rw [if_pos h0]
    simp
  · rw [if_neg h0]
    intro hcon
    have := natToDec_val n
    unfold natToDec at this
    rw [if_neg h0, hcon] at this
    exact h0 (by simpa [digitsValBE] using this.symm)

/-- Parsing the printed decimal of an in-range i64 recovers the value. -/
theorem parseI64_intToDec (i : Int) (h1 : -(2 ^ 63) ≤ i) (h2 : i < 2 ^ 63) :
    parseI64 (intToDec i) = some i := by
  unfold intToDec
  by_cases hneg : i < 0
  · rw [if_pos hneg]
    have hd := natToDec_digits i.natAbs
    have hv := natToDec_val i.natAbs
    have hn := natToDec_ne_nil i.natAbs
    have hstep : parseI64 (45 :: natToDec i.natAbs)
        = if natToDec i.natAbs ≠ [] ∧ (natToDec i.natAbs).all isDigit = true ∧
              digitsValBE (natToDec i.natAbs) ≤ 2 ^ 63
          then some (-(digitsValBE (natToDec i.natAbs) : Int)) else none := rfl
    rw [hstep, if_pos ⟨hn, List.all_eq_true.mpr hd, by rw [hv]; omega⟩, hv]
    congr 1
    omega
  · rw [if_neg hneg]
    obtain ⟨c, rest, hcr⟩ := List.exists_cons_of_ne_nil (natToDec_ne_nil i.toNat)
    have hdig : isDigit c = true := by
      apply natToDec_digits i.toNat
      rw [hcr]
      exact List.mem_cons_self _ _
    have hc48 : 48 ≤ c ∧ c ≤ 57 := by
      unfold isDigit at hdig
      simp only [Bool.and_eq_true, decide_eq_true_eq] at hdig
      exact hdig
    have hall : (c :: rest).all isDigit = true := by
      rw [← hcr]
      exact List.all_eq_true.mpr (natToDec_digits _)
    have hv : digitsValBE (c :: rest) = i.toNat := by
      rw [← hcr, natToDec_val]
    rw [hcr]
    simp only [parseI64]
    rw [if_neg (by omega), if_neg (by omega), if_pos ⟨hall, by rw [hv]; omega⟩, hv]
    congr 1
    omega

/-- State of one `map.rs: Map` collection: the `@L` length cell and the
entries keyed by the user key (`prefix ‖ ":" ‖ userKey`). -/
structure MapState where
  lenCell : Option Nat
  entries : KV Bytes Bytes

namespace MapState

/-- `Map::length` (absent `@L` cell reads as 0). -/
def length (s : MapState) : Nat := s.lenCell.getD 0

/-- `Map::incr_length`: skip when already empty and decrementing; the
`(length as i32 + incr) as u32` round-trip is wrapping mod 2^32. -/
def incr_length (s : MapState) (incr : Int) : MapState :=
  if s.length = 0 ∧ incr < 0 then s
  else { s with lenCell := some ((((s.length : Int) + incr) % (M32 : Int)).toNat) }

/-- `Map::exists`. -/
def exists_ (s : MapState) (k : Bytes) : Bool := (s.entries.get k).isSome

/-- `Map::get`. -/
def get (s : MapState) (k : Bytes) : Option Bytes := s.entries.get k

/-- `Map::set`: probe for new-vs-replace, write, and bump the length for a
new key — one batch. -/
def set (s : MapState) (k v : Bytes) : MapState :=
  if s.entries.get k = none then
    ({ s with entries := s.entries.put k v } : MapState).incr_length 1
  else { s with entries := s.entries.put k v }

/-- `Map::setnx`: write only if absent. -/
def setnx (s : MapState) (k v : Bytes) : MapState :=
  if (s.entries.get k).isSome then s
  else ({ s with entries := s.entries.put k v } : MapState).incr_length 1

/-- `Map::delete`: no-op when absent; otherwise remove and decrement. -/
def delete (s : MapState) (k : Bytes) : MapState :=
  if s.entries.get k = none then s
  else ({ s with entries := s.entries.del k } : MapState).incr_length (-1)

/-- `Map::increase`: parse the existing value as a signed decimal (absent is
a new entry holding the delta), store the decimal of the sum.  The second
component is the error; on an error nothing was written (the source returns
before `db.write`). -/
def increase (s : MapState) (k : Bytes) (incr : Int) : MapState × Option DBErr :=
  match s.entries.get k with
  | some v =>
    match parseI64 v with
    | some n => ({ s with entries := s.entries.put k (intToDec (n + incr)) }, none)
    | none => (s, some DBErr.isNotNumeric)
  | none =>
    (({ s with entries := s.entries.put k (intToDec incr) } : MapState).incr_length 1, none)

theorem incr_length_entries (s : MapState) (incr : Int) :
    (s.incr_length incr).entries = s.entries := by
  unfold incr_length
  split <;> rfl

theorem incr_length_len_one (s : MapState) (h : s.length + 1 < M32) :
    (s.incr_length 1).length = s.length + 1 := by
  unfold incr_length
  split
  · rename_i hc
    exfalso
    omega
  · show (Option.some _).getD 0 = _
    simp only [Option.getD_some]
    unfold M32 at *
    omega

theorem increase_absent (s : MapState) (k : Bytes) (incr : Int)
    (h : s.entries.get k = none) :
    s.increase k incr =
      (({ s with entries := s.entries.put k (intToDec incr) } : MapState).incr_length 1,
        none) := by
  unfold increase
  rw [h]

theorem increase_present_ok (s : MapState) (k : Bytes) (incr : Int) (v : Bytes) (n : Int)
    (h : s.entries.get k = some v) (hp : parseI64 v = some n) :
    s.increase k incr =
      ({ s with entries := s.entries.put k (intToDec (n + incr)) }, none) := by
  unfold increase
  rw [h]
  show (match parseI64 v with
    | some n => ({ s with entries := s.entries.put k (intToDec (n + incr)) }, none)
    | none => (s, some DBErr.isNotNumeric)) = _
  rw [hp]

theorem increase_present_bad (s : MapState) (k : Bytes) (incr : Int) (v : Bytes)
    (h : s.entries.get k = some v) (hp : parseI64 v = none) :
    s.increase k incr = (s, some DBErr.isNotNumeric) := by
  unfold increase
  rw [h]
  show (match parseI64 v with
    | some n => ({ s with entries := s.entries.put k (intToDec (n + incr)) }, none)
    | none => (s, some DBErr.isNotNumeric)) = _
  rw [hp]

end MapState

/-- The freshly-created (never written) map key space. -/
def mapEmpty : MapState := ⟨none, KV.empty []⟩

/-- C7: on a Map with key `k` absent, `increase(k, a)` stores the ASCII
decimal of `a` and increments the length cell by 1 (absent treated as zero,
counted as a new entry); a following `increase(k, b)` stores the ASCII
decimal of `a + b` without changing the length; and for every key whose
stored value is not parseable as a signed decimal integer, `increase` fails
with not-numeric and the map state is unchanged.  (`a`, `b` and `a + b` are
required to lie in the i64 range, as they do for the source's i64 values.) -/
theorem c7_map_increase (s : MapState) (k : Bytes) (a b d : Int)
    (ha1 : -(2 ^ 63) ≤ a) (ha2 : a < 2 ^ 63)
    (hab1 : -(2 ^ 63) ≤ a + b) (hab2 : a + b < 2 ^ 63)
    (habs : s.entries.get k = none) (hlen : s.length + 1 < M32) :
    ((s.increase k a).2 = none) ∧
    ((s.increase k a).1.entries.get k = some (intToDec a)) ∧
    ((s.increase k a).1.length = s.length + 1) ∧
    (((s.increase k a).1.increase k b).2 = none) ∧
    (((s.increase k a).1.increase k b).1.entries.get k = some (intToDec (a + b))) ∧
    (((s.increase k a).1.increase k b).1.length = (s.increase k a).1.length) ∧
    (∀ (t : MapState) (k2 v : Bytes), t.entries.get k2 = some v → parseI64 v = none →
      t.increase k2 d = (t, some DBErr.isNotNumeric)) := by
  have e1 := MapState.increase_absent s k a habs
  have s1get : (s.increase k a).1.entries.get k = some (intToDec a) := by
    rw [e1]
    show (({ s with entries := s.entries.put k (intToDec a) } : MapState).incr_length
      1).entries.get k = _
    rw [MapState.incr_length_entries]
    exact KV.get_put_self _ _ _
  have s1len : (s.increase k a).1.length = s.length + 1 := by
    rw [e1]
    show (({ s with entries := s.entries.put k (intToDec a) } : MapState).incr_length
      1).length = _
    rw [MapState.incr_length_len_one _ (by show s.length + 1 < M32; exact hlen)]
    rfl
  have e2 := MapState.increase_present_ok (s.increase k a).1 k b (intToDec a) a s1get
    (parseI64_intToDec a ha1 ha2)
  refine ⟨by rw [e1], s1get, s1len, by rw [e2], ?_, by rw [e2]; rfl, ?_⟩
  · rw [e2]
    exact KV.get_put_self _ _ _
  · intro t k2 v hget hbad
    exact MapState.increase_present_bad t k2 d v hget hbad

/-- Witness for C7 on the empty map with a = 5, b = -7, d = 3. -/
theorem c7_map_increase_witness :
    ((-(2 ^ 63) : Int) ≤ 5 ∧ (5 : Int) < 2 ^ 63 ∧ (-(2 ^ 63) : Int) ≤ 5 + -7 ∧
      (5 : Int) + -7 < 2 ^ 63 ∧ mapEmpty.entries.get [107] = none ∧
      mapEmpty.length + 1 < M32) ∧
    (((mapEmpty.increase [107] 5).2 = none) ∧
     ((mapEmpty.increase [107] 5).1.entries.get [107] = some (intToDec 5)) ∧
     ((mapEmpty.increase [107] 5).1.length = mapEmpty.length + 1) ∧
     (((mapEmpty.increase [107] 5).1.increase [107] (-7)).2 = none) ∧
     (((mapEmpty.increase [107] 5).1.increase [107] (-7)).1.entries.get [107]
        = some (intToDec (5 + -7))) ∧
     (((mapEmpty.increase [107] 5).1.increase [107] (-7)).1.length
        = (mapEmpty.increase [107] 5).1.length) ∧
     (∀ (t : MapState) (k2 v : Bytes), t.entries.get k2 = some v → parseI64 v = none →
       t.increase k2 3 = (t, some DBErr.isNotNumeric))) :=
  ⟨⟨by decide, by decide, by decide, by decide, by decide, by decide⟩,
   c7_map_increase mapEmpty [107] 5 (-7) 3 (by decide) (by decide) (by decide) (by decide)
     (by decide) (by decide)⟩

instance {ε α : Type} [DecidableEq ε] [DecidableEq α] : DecidableEq (Except ε α) :=
  fun a b =>
  match a, b with
  | Except.ok x, Except.ok y =>
    if h : x = y then Decidable.isTrue (congrArg Except.ok h)
    else Decidable.isFalse (fun hc => h (Except.ok.inj hc))
  | Except.error x, Except.error y =>
    if h : x = y then Decidable.isTrue (congrArg Except.error h)
    else Decidable.isFalse (fun hc => h (Except.error.inj hc))
  | Except.ok _, Except.error _ => Decidable.isFalse (fun hc => Except.noConfusion hc)
  | Except.error _, Except.ok _ => Decidable.isFalse (fun hc => Except.noConfusion hc)

/-- `common.rs: Direction`. -/
inductive Direction
  | forward
  | reverse

/-- State of one `arraymap.rs: ArrayMap`: its backing List (`<name>@list`)
and Map (`<name>@map`), which live under distinct 9-byte key prefixes of the
shared store. -/
structure AMState where
  list : ListState
  map : MapState

/-- A fresh ArrayMap. -/
def amEmpty : AMState := ⟨listEmpty, mapEmpty⟩

namespace AMState

/-- `ArrayMap::length` reads the backing list's length. -/
def length (s : AMState) : Nat := s.list.length

/-- `ArrayMap::get`: map `key_hash → index‖key`, read the list slot at the
decoded index (`DBValue::IndexKey.index()` = first 4 bytes), return the value
part of `hash‖value` (`DBValue::KeyhashValue.value()` = bytes from 8). -/
def get (kh : Bytes → Nat) (s : AMState) (key : Bytes) : Except DBErr (Option Bytes) :=
  match s.map.get (beBytes 8 (kh key)) with
  | some iv =>
    match s.list.index_with_abs (beVal (iv.take 4)) with
    | some w => .ok (some (w.drop 8))
    | none => .error .dbValueNotMatch
  | none => .ok none

/-- `ArrayMap::exists`. -/
def exists_ (kh : Bytes → Nat) (s : AMState) (key : Bytes) : Bool :=
  s.map.exists_ (beBytes 8 (kh key))

/-- `ArrayMap::set_new_pair`: push `hash‖value` onto the list on the given
side and record `index‖key` under the hash in the map. -/
def set_new_pair (s : AMState) (hb key value : Bytes) (dir : Direction) : AMState :=
  match dir with
  | .forward =>
    let r := s.list.push [hb ++ value]
    { list := r.2, map := s.map.set hb (beBytes 4 (r.1.headD 0) ++ key) }
  | .reverse =>
    let r := s.list.push_left [hb ++ value]
    { list := r.2, map := s.map.set hb (beBytes 4 (r.1.headD 0) ++ key) }

/-- `ArrayMap::set_list_item`: overwrite an existing list slot with
`hash‖value`. -/
def set_list_item (s : AMState) (index : Nat) (hb value : Bytes) : Except DBErr AMState :=
  match s.list.set_by_absindex index (hb ++ value) with
  | .ok l2 => .ok { s with list := l2 }
  | .error e => .error e

/-- One pair of `ArrayMap::push`: replace in place when the hash is known,
else append to the right. -/
def push1 (kh : Bytes → Nat) (s : AMState) (key value : Bytes) : Except DBErr AMState :=
  let hb := beBytes 8 (kh key)
  match s.map.get hb with
  | some iv => s.set_list_item (beVal (iv.take 4)) hb value
  | none => .ok (s.set_new_pair hb key value .forward)

/-- `ArrayMap::push` over a pair list (the source's for loop; an error stops
the loop). -/
def push (kh : Bytes → Nat) (s : AMState) :
    List (Bytes × Bytes) → Except DBErr AMState
  | [] => .ok s
  | (k, v) :: ps =>
    match push1 kh s k v with
    | .ok s2 => push kh s2 ps
    | .error e => .error e

/-- One pair of `ArrayMap::pushnx`: skip when the hash exists. -/
def pushnx1 (kh : Bytes → Nat) (s : AMState) (key value : Bytes) : AMState :=
  let hb := beBytes 8 (kh key)
  if s.map.exists_ hb then s
  else s.set_new_pair hb key value .forward

/-- `ArrayMap::pushnx`. -/
def pushnx (kh : Bytes → Nat) (s : AMState) : List (Bytes × Bytes) → AMState
  | [] => s
  | (k, v) :: ps => pushnx (kh) (pushnx1 kh s k v) ps

/-- One pair of `ArrayMap::push_left`: replace in place when known, else
append to the left. -/
def push_left1 (kh : Bytes → Nat) (s : AMState) (key value : Bytes) :
    Except DBErr AMState :=
  let hb := beBytes 8 (kh key)
  match s.map.get hb with
  | some iv => s.set_list_item (beVal (iv.take 4)) hb value
  | none => .ok (s.set_new_pair hb key value .reverse)

/-- `ArrayMap::push_left`. -/
def push_left (kh : Bytes → Nat) (s : AMState) :
    List (Bytes × Bytes) → Except DBErr AMState
  | [] => .ok s
  | (k, v) :: ps =>
    match push_left1 kh s k v with
    | .ok s2 => push_left kh s2 ps
    | .error e => .error e

/-- One pair of `ArrayMap::pushnx_left`. -/
def pushnx_left1 (kh : Bytes → Nat) (s : AMState) (key value : Bytes) : AMState :=
  let hb := beBytes 8 (kh key)
  if s.map.exists_ hb then s
  else s.set_new_pair hb key value .reverse

/-- `ArrayMap::pushnx_left`. -/
def pushnx_left (kh : Bytes → Nat) (s : AMState) : List (Bytes × Bytes) → AMState
  | [] => s
  | (k, v) :: ps => pushnx_left (kh) (pushnx_left1 kh s k v) ps

/-- `ArrayMap::increase`: parse the value part of the existing slot as a
signed decimal and write back `hash‖(old+delta)` in place; absent keys append
`hash‖delta` to the right and record the index in the map. -/
def increase (kh : Bytes → Nat) (s : AMState) (key : Bytes) (incr : Int) :
    Except DBErr AMState :=
  let hb := beBytes 8 (kh key)
  match s.map.get hb with
  | some iv =>
    match s.list.index_with_abs (beVal (iv.take 4)) with
    | some w =>
      match parseI64 (w.drop 8) with
      | some n => s.set_list_item (beVal (iv.take 4)) hb (intToDec (n + incr))
      | none => .error .isNotNumeric
    | none => .error .dbValueNotMatch
  | none => .ok (s.set_new_pair hb key (intToDec incr) .forward)

/-- `ArrayMap::pop`: pop the rightmost list element, then delete its map
entry; returns `(index‖key, hash‖value)`. -/
def pop (s : AMState) : Except DBErr (Option (Bytes × Bytes) × AMState) :=
  let r := s.list.pop
  match r.1 with
  | some v =>
    match s.map.get (v.take 8) with
    | some ik => .ok (some (ik, v), { list := r.2, map := s.map.delete (v.take 8) })
    | none => .error .dbValueNotMatch
  | none => .ok (none, { s with list := r.2 })

/-- `ArrayMap::pop_left`. -/
def pop_left (s : AMState) : Except DBErr (Option (Bytes × Bytes) × AMState) :=
  let r := s.list.pop_left
  match r.1 with
  | some v =>
    match s.map.get (v.take 8) with
    | some ik => .ok (some (ik, v), { list := r.2, map := s.map.delete (v.take 8) })
    | none => .error .dbValueNotMatch
  | none => .ok (none, { s with list := r.2 })

/-- `ArrayMap::pop_random` with the random oracle choice `c`: pop a random
list element (which swap-deletes a mid-window victim), then delete the
popped element's map entry.  Note: unlike `ArrayMap::delete`, there is no
re-pointing of the map entry of the element that the list moved. -/
def pop_random (s : AMState) (c : Nat) : Except DBErr (Option (Bytes × Bytes) × AMState) :=
  let r := s.list.pop_random c
  match r.1 with
  | some v =>
    match s.map.get (v.take 8) with
    | some ik => .ok (some (ik, v), { list := r.2, map := s.map.delete (v.take 8) })
    | none => .error .dbValueNotMatch
  | none => .ok (none, { s with list := r.2 })

/-- `ArrayMap::delete`: remove the map entry and swap-delete the list slot,
then — if the old first element was moved into the victim slot — re-point
that element's map entry at its new index. -/
def delete (kh : Bytes → Nat) (s : AMState) (key : Bytes) : Except DBErr AMState :=
  let hb := beBytes 8 (kh key)
  match s.map.get hb with
  | some iv =>
    let index := beVal (iv.take 4)
    let m1 := s.map.delete hb
    let l1 := s.list.delete_with_abs_index index
    match l1.index_with_abs index with
    | some w =>
      match m1.get (w.take 8) with
      | some oik =>
        .ok { list := l1, map := m1.set (w.take 8) (beBytes 4 index ++ oik.drop 4) }
      | none => .error .dbValueNotMatch
    | none => .ok { list := l1, map := m1 }
  | none => .ok s

end AMState

namespace ListState

/-! ### Single-value push and accepted set_by_absindex -/

theorem push_one_idx (s : ListState) (v : Bytes) : (s.push [v]).1 = [s.tail] := rfl

theorem push_one_slots (s : ListState) (v : Bytes) :
    (s.push [v]).2.slots = s.slots.put s.tail v := by
  unfold push
  rw [incr_length_slots]
  rfl

theorem push_one_tailCell (s : ListState) (v : Bytes) :
    (s.push [v]).2.tailCell = some (succ32 s.tail) := by
  unfold push
  rw [incr_length_tailCell]
  rfl

theorem set_by_absindex_ok (s : ListState) (a : Nat) (v : Bytes)
    (hh : s.head < M32) (ht : s.tail < M32) (ha : a ∈ window s.head s.tail) :
    s.set_by_absindex a v = Except.ok { s with slots := s.slots.put a v } := by
  rw [mem_window] at ha
  obtain ⟨j, hj, rfl⟩ := ha
  have hwl := winLen_lt s.head s.tail
  unfold set_by_absindex
  by_cases hc : s.head < s.tail
  · rw [if_pos hc]
    rw [if_neg (by unfold winLen M32 at *; omega)]
  · rw [if_neg hc]
    rw [if_neg (by unfold winLen M32 at *; omega)]

end ListState

namespace MapState

theorem set_get_self (s : MapState) (k v : Bytes) :
    (s.set k v).entries.get k = some v := by
  unfold set
  split
  · rw [incr_length_entries]
    exact KV.get_put_self _ _ _
  · exact KV.get_put_self _ _ _

end MapState

/-- The bijection property that the specification asserts for the ArrayMap:
the backing List's length equals the backing Map's length; every Map entry's
decoded index addresses an existing List slot whose first 8 bytes are the
entry's key-hash bytes; and no List slot is orphaned (each one is referenced
by some Map entry). -/
def amBijection (s : AMState) : Prop :=
  s.list.length = s.map.length ∧
  (∀ hb ∈ s.map.entries.dom,
    beVal ((s.map.entries.val hb).take 4) ∈ s.list.slots.dom ∧
    (s.list.slots.val (beVal ((s.map.entries.val hb).take 4))).take 8 = hb) ∧
  (∀ i ∈ s.list.slots.dom, ∃ hb ∈ s.map.entries.dom,
    beVal ((s.map.entries.val hb).take 4) = i)

instance (s : AMState) : Decidable (amBijection s) := by
  unfold amBijection
  infer_instance

/-- A concrete key-hash oracle for the C1 run (first byte of the key); the
three keys `[0]`, `[1]`, `[2]` get the distinct hashes 0, 1, 2. -/
def khDemo : Bytes → Nat := fun k => k.headD 0

/-- The C1 run, step 1: push three fresh pairs into an empty ArrayMap. -/
def c1Push : Except DBErr AMState :=
  AMState.push khDemo amEmpty [([0], [10]), ([1], [11]), ([2], [12])]

def c1S0 : AMState :=
  match c1Push with
  | .ok s => s
  | .error _ => amEmpty

/-- The C1 run, step 2: `pop_random` whose random oracle picked relative
index 1 — a choice `random_index` makes with positive probability, since for
`length = 3` it returns `(length - 1) * y` for `y ∈ [0, 1)`, i.e. 0 or 1. -/
def c1Run : Except DBErr (Option (Bytes × Bytes) × AMState) := c1S0.pop_random 1

def c1S1 : AMState :=
  match c1Run with
  | .ok (_, s) => s
  | .error _ => amEmpty

/-- The `(index‖key, hash‖value)` pair returned by the C1 `pop_random`. -/
def c1RunPair : Option (Bytes × Bytes) :=
  match c1Run with
  | .ok (p, _) => p
  | .error _ => none

/-- C1 (code bug): after pushing three fresh pairs into an empty ArrayMap
(where the bijection still holds), one `pop_random` whose random choice is
the mid-window relative index 1 leaves a dangling Map entry: the map still
records key `[0]`'s hash at index 0, but the List slot 0 no longer exists
(the list's swap-delete moved that element to slot 1 and `ArrayMap::pop_random`
— unlike `ArrayMap::delete` — never re-points the moved element's Map entry). -/
theorem c1_pop_random_dangles :
    c1Push.toOption.isSome = true ∧
    amBijection c1S0 ∧
    c1Run.toOption.isSome = true ∧
    c1RunPair = some (beBytes 4 1 ++ [1], beBytes 8 1 ++ [11]) ∧
    c1S1.map.entries.get (beBytes 8 0) = some (beBytes 4 0 ++ [0]) ∧
    c1S1.list.slots.get 0 = none ∧
    ¬ amBijection c1S1 := by
  refine ⟨by decide, by decide, by decide, by decide, by decide, by decide, by decide⟩

/-- C4: on any ArrayMap whose backing list satisfies the window invariant,
has room for one more element, and in which key `K` is absent:
`push([(K,V)])` then `get(K)` returns `V`; a subsequent `push([(K,V1)])`
overwrites the existing List slot at `K`'s recorded index (the map entry and
the head/tail cursors are unchanged) so `get(K)` returns `V1`; and a
subsequent `pushnx([(K,V2)])` changes nothing, so `get(K)` still returns the
value stored before the pushnx. -/
theorem c4_arraymap_get_roundtrip (kh : Bytes → Nat) (s : AMState) (K V V1 V2 : Bytes)
    (hinv : ListInv s.list) (hcap : s.list.length + 2 ≤ M32)
    (habs : s.map.get (beBytes 8 (kh K)) = none) :
    ∃ s1 s2 : AMState,
      AMState.push kh s [(K, V)] = Except.ok s1 ∧
      AMState.get kh s1 K = Except.ok (some V) ∧
      s1.map.get (beBytes 8 (kh K)) = some (beBytes 4 s.list.tail ++ K) ∧
      AMState.push kh s1 [(K, V1)] = Except.ok s2 ∧
      s2.map = s1.map ∧
      s2.list.headCell = s1.list.headCell ∧
      s2.list.tailCell = s1.list.tailCell ∧
      s2.list.slots.get s.list.tail = some (beBytes 8 (kh K) ++ V1) ∧
      AMState.get kh s2 K = Except.ok (some V1) ∧
      AMState.pushnx kh s2 [(K, V2)] = s2 ∧
      AMState.get kh s2 K = Except.ok (some V1) := by
  obtain ⟨hh, ht, hlen, hdom⟩ := hinv
  have hwl := winLen_lt s.list.head s.list.tail
  refine ⟨s.set_new_pair (beBytes 8 (kh K)) K V .forward, ?_⟩
  set hb := beBytes 8 (kh K) with hhb
  set t := s.list.tail with htdef
  set s1 : AMState := s.set_new_pair hb K V Direction.forward with hs1
  -- the decoded index recorded in the map entry
  have hdec : beVal ((beBytes 4 t ++ K).take 4) = t := by
    rw [beVal_append_beBytes, beVal_beBytes]
    have h4 : (256 : Nat) ^ 4 = M32 := by
      unfold M32
      norm_num
    rw [h4]
    exact Nat.mod_eq_of_lt ht
  have hs1map : s1.map.get hb = some (beBytes 4 t ++ K) := by
    show (s.map.set hb
      (beBytes 4 ((s.list.push [hb ++ V]).1.headD 0) ++ K)).entries.get hb = _
    rw [push_one_idx]
    exact MapState.set_get_self _ _ _
  have hs1slots : s1.list.slots = s.list.slots.put t (hb ++ V) := by
    show (s.list.push [hb ++ V]).2.slots = _
    rw [push_one_slots]
  have hs1head : s1.list.headCell = s.list.headCell := by
    show (s.list.push [hb ++ V]).2.headCell = _
    exact push_headCell _ _
  have hs1tail : s1.list.tailCell = some (succ32 t) := by
    show (s.list.push [hb ++ V]).2.tailCell = _
    exact push_one_tailCell _ _
  have hs1headv : s1.list.head = s.list.head := by
    unfold ListState.head
    rw [hs1head]
  have hs1tailv : s1.list.tail = succ32 t := by
    unfold ListState.tail
    rw [hs1tail]
    rfl
  have hs1get : AMState.get kh s1 K = Except.ok (some V) := by
    unfold AMState.get
    rw [show s1.map.get (beBytes 8 (kh K)) = some (beBytes 4 t ++ K) from hs1map]
    show (match s1.list.index_with_abs (beVal ((beBytes 4 t ++ K).take 4)) with
      | some w => Except.ok (some (w.drop 8))
      | none => Except.error DBErr.dbValueNotMatch) = _
    rw [hdec]
    show (match s1.list.slots.get t with
      | some w => Except.ok (some (w.drop 8))
      | none => Except.error DBErr.dbValueNotMatch) = _
    rw [hs1slots, KV.get_put_self]
    show Except.ok (some ((hb ++ V).drop 8)) = _
    rw [hhb, drop_append_beBytes]
  have hpushs1 : AMState.push kh s [(K, V)] = Except.ok s1 := by
    unfold AMState.push AMState.push1
    dsimp only
    rw [show s.map.get (beBytes 8 (kh K)) = none from habs]
    rfl
  -- the replacing push
  have htmem : t ∈ window s1.list.head s1.list.tail := by
    rw [hs1headv, hs1tailv, succ32_eq_mod _ ht,
      window_push s.list.head t 1 hh ht (by omega)]
    apply Finset.mem_union_right
    unfold pushedIdx
    rw [Finset.mem_image]
    refine ⟨0, by decide, ?_⟩
    show (t + 0) % M32 = t
    rw [Nat.add_zero]
    exact Nat.mod_eq_of_lt ht
  have hset : s1.list.set_by_absindex t (hb ++ V1)
      = Except.ok { s1.list with slots := s1.list.slots.put t (hb ++ V1) } :=
    set_by_absindex_ok s1.list t (hb ++ V1) (by rw [hs1headv]; exact hh)
      (by rw [hs1tailv]; exact succ32_lt _ ht) htmem
  set s2 : AMState :=
    { s1 with list := { s1.list with slots := s1.list.slots.put t (hb ++ V1) } } with hs2
  have hpushs2 : AMState.push kh s1 [(K, V1)] = Except.ok s2 := by
    unfold AMState.push AMState.push1
    dsimp only
    rw [show s1.map.get (beBytes 8 (kh K)) = some (beBytes 4 t ++ K) from hs1map]
    show (match AMState.set_list_item s1 (beVal ((beBytes 4 t ++ K).take 4)) hb V1 with
      | Except.ok s3 => AMState.push kh s3 []
      | Except.error e => Except.error e) = _
    rw [hdec]
    unfold AMState.set_list_item
    rw [hset]
    rfl
  have hs2slot : s2.list.slots.get t = some (hb ++ V1) := KV.get_put_self _ _ _
  have hs2get : AMState.get kh s2 K = Except.ok (some V1) := by
    unfold AMState.get
    rw [show s2.map.get (beBytes 8 (kh K)) = some (beBytes 4 t ++ K) from hs1map]
    show (match s2.list.index_with_abs (beVal ((beBytes 4 t ++ K).take 4)) with
      | some w => Except.ok (some (w.drop 8))
      | none => Except.error DBErr.dbValueNotMatch) = _
    rw [hdec]
    show (match s2.list.slots.get t with
      | some w => Except.ok (some (w.drop 8))
      | none => Except.error DBErr.dbValueNotMatch) = _
    rw [hs2slot]
    show Except.ok (some ((hb ++ V1).drop 8)) = _
    rw [hhb, drop_append_beBytes]
  have hnx : AMState.pushnx kh s2 [(K, V2)] = s2 := by
    unfold AMState.pushnx AMState.pushnx1
    dsimp only
    have hex : s2.map.exists_ (beBytes 8 (kh K)) = true := by
      unfold MapState.exists_
      rw [show s2.map.entries.get (beBytes 8 (kh K)) = some (beBytes 4 t ++ K) from hs1map]
      rfl
    rw [hex]
    show AMState.pushnx kh s2 [] = s2
    rfl
  exact ⟨s2, hpushs1, hs1get, hs1map, hpushs2, rfl, rfl, rfl, hs2slot, hs2get, hnx, hs2get⟩

/-- Witness for C4 on the empty ArrayMap with key `[5]`. -/
theorem c4_arraymap_get_roundtrip_witness :
    (ListInv amEmpty.list ∧ amEmpty.list.length + 2 ≤ M32 ∧
      amEmpty.map.get (beBytes 8 (khDemo [5])) = none) ∧
    (∃ s1 s2 : AMState,
      AMState.push khDemo amEmpty [([5], [1])] = Except.ok s1 ∧
      AMState.get khDemo s1 [5] = Except.ok (some [1]) ∧
      s1.map.get (beBytes 8 (khDemo [5])) = some (beBytes 4 amEmpty.list.tail ++ [5]) ∧
      AMState.push khDemo s1 [([5], [2])] = Except.ok s2 ∧
      s2.map = s1.map ∧
      s2.list.headCell = s1.list.headCell ∧
      s2.list.tailCell = s1.list.tailCell ∧
      s2.list.slots.get amEmpty.list.tail = some (beBytes 8 (khDemo [5]) ++ [2]) ∧
      AMState.get khDemo s2 [5] = Except.ok (some [2]) ∧
      AMState.pushnx khDemo s2 [([5], [3])] = s2 ∧
      AMState.get khDemo s2 [5] = Except.ok (some [2])) :=
  ⟨⟨by decide, by decide, by decide⟩,
   c4_arraymap_get_roundtrip khDemo amEmpty [5] [1] [2] [3] (by decide) (by decide)
     (by decide)⟩

/-!
## The collection `remove` protocol (`data.rs: LodisData::remove`)

The flat store is modelled as the `Finset` of keys present (values are
irrelevant to `remove`), ordered by the lexicographic byte order that rocksdb
uses with its default comparator.  A forward iterator positioned `From(k)`
yields the smallest key `≥ k`; a reverse iterator positioned `From(k)` yields
the largest key `≤ k`.  (No `prefix_extractor` is configured on the DB, so
`set_prefix_same_as_start` has no effect.)
-/

/-- First key `≥ k` in the store
(`db.iterator_opt(IteratorMode::From(k, Direction::Forward), _)` + `next`). -/
def seekForward (db : Finset Bytes) (k : Bytes) : Option Bytes :=
  if h : (db.filter (fun x => k ≤ x)).Nonempty then
    some ((db.filter (fun x => k ≤ x)).min' h)
  else none

/-- First key `≤ k` in reverse order
(`db.iterator_opt(IteratorMode::From(k, Direction::Reverse), _)` + `next`). -/
def seekReverse (db : Finset Bytes) (k : Bytes) : Option Bytes :=
  if h : (db.filter (fun x => x ≤ k)).Nonempty then
    some ((db.filter (fun x => x ≤ k)).max' h)
  else none

/-- `data.rs: LodisData::remove`, on the key set of the store.  `fl` is the
type flag byte (`self.prefix()[0]`) and `nh = siphash(name)`, so that the
collection's 9-byte key space is `fl :: beBytes 8 nh`; the successor position
is `fl :: beBytes 8 (nh+1 mod 2^64)` (`u64_to_u8x8(siphash(name) + 1)`).
`delete_range(start_key, end_key)` removes the half-open range
`start_key ≤ k < end_key`; it is followed by `delete(end_key)`. -/
def LodisData.remove (fl nh : Nat) (db : Finset Bytes) : Finset Bytes :=
  match seekForward db (fl :: beBytes 8 nh) with
  | none => db
  | some start_key =>
    if start_key.take 9 ≠ fl :: beBytes 8 nh then db
    else
      match seekReverse db (fl :: beBytes 8 ((nh + 1) % 18446744073709551616)) with
      | none => db.erase start_key
      | some end_key =>
        if end_key.take 9 ≠ fl :: beBytes 8 nh then db.erase start_key
        else
          (if start_key ≠ end_key then
            db.filter (fun k => ¬ (start_key ≤ k ∧ k < end_key))
          else db).erase end_key

/-! Lexicographic order facts for byte strings (`List Nat` carries Mathlib's
`List.Lex (· < ·)` linear order, which is rocksdb's default byte order). -/

theorem lex_cons_lt_cons {a b : Nat} {l1 l2 : Bytes} :
    (a :: l1 : Bytes) < (b :: l2) ↔ a < b ∨ (a = b ∧ l1 < l2) := by
  constructor
  · intro h
    cases h with
    | cons h => exact Or.inr ⟨rfl, h⟩
    | rel h => exact Or.inl h
  · rintro (h | ⟨rfl, h⟩)
    · exact List.Lex.rel h
    · exact List.Lex.cons h

theorem lex_append_lt {p u : Bytes} (hlen : p.length = u.length) (hpu : p < u)
    (t v : Bytes) : p ++ t < u ++ v := by
  induction p generalizing u with
  | nil =>
    cases u with
    | nil => exact absurd hpu (lt_irrefl _)
    | cons b us => simp at hlen
  | cons a ps ih =>
    cases u with
    | nil => simp at hlen
    | cons b us =>
      rcases lex_cons_lt_cons.mp hpu with h | ⟨rfl, h⟩
      · exact lex_cons_lt_cons.mpr (Or.inl h)
      · exact lex_cons_lt_cons.mpr (Or.inr ⟨rfl, ih (by simpa using hlen) h⟩)

theorem lex_self_append_lt (p : Bytes) (c : Nat) (ts : Bytes) : p < p ++ c :: ts := by
  induction p with
  | nil => exact List.nil_lt_cons c ts
  | cons a ps ih => exact lex_cons_lt_cons.mpr (Or.inr ⟨rfl, ih⟩)

theorem lex_self_append_le (p t : Bytes) : p ≤ p ++ t := by
  cases t with
  | nil => simp
  | cons c ts => exact le_of_lt (lex_self_append_lt p c ts)

theorem lex_le_append_iff {p u : Bytes} (hlen : p.length = u.length) (v : Bytes) :
    p ≤ u ++ v ↔ p ≤ u := by
  constructor
  · intro h
    by_contra hnot
    have hup : u < p := lt_of_not_le hnot
    have h2 : u ++ v < p := by
      have h3 := lex_append_lt hlen.symm hup v []
      simpa using h3
    exact absurd h (not_le_of_lt h2)
  · intro h
    rcases lt_or_eq_of_le h with hlt | heq
    · exact le_of_lt (by simpa using lex_append_lt hlen hlt [] v)
    · exact heq ▸ lex_self_append_le p v

theorem lex_append_le_iff {u p : Bytes} (hlen : u.length = p.length) (c : Nat)
    (ts : Bytes) : u ++ c :: ts ≤ p ↔ u < p := by
  constructor
  · intro h
    rcases lt_trichotomy u p with hlt | heq | hgt
    · exact hlt
    · exact absurd h (heq ▸ not_le_of_lt (lex_self_append_lt u c ts))
    · have h2 : p < u ++ c :: ts := by
        have h3 := lex_append_lt hlen.symm hgt [] (c :: ts)
        simpa using h3
      exact absurd h (not_le_of_lt h2)
  · intro h
    have h2 := lex_append_lt hlen h (c :: ts) []
    simpa using le_of_lt h2

theorem beVal_cons (x : Nat) (xs : Bytes) :
    beVal (x :: xs) = x * 256 ^ xs.length + beVal xs := by
  simp only [beVal, List.foldl_cons]
  rw [beVal_aux]
  simp only [beVal]
  ring

theorem beBytes_mem_lt (w n : Nat) : ∀ x ∈ beBytes w n, x < 256 := by
  induction w generalizing n with
  | zero => intro x hx; simp [beBytes] at hx
  | succ w ih =>
    intro x hx
    simp only [beBytes, List.mem_cons] at hx
    rcases hx with rfl | hx
    · exact Nat.mod_lt _ (by omega)
    · exact ih n x hx

theorem beVal_lt_of_bytes {l : Bytes} (h : ∀ x ∈ l, x < 256) :
    beVal l < 256 ^ l.length := by
  induction l with
  | nil => simp [beVal]
  | cons x xs ih =>
    rw [beVal_cons]
    have hx : x < 256 := h x (by simp)
    have hxs : beVal xs < 256 ^ xs.length := ih (fun z hz => h z (by simp [hz]))
    calc x * 256 ^ xs.length + beVal xs
        < x * 256 ^ xs.length + 256 ^ xs.length := by omega
      _ = (x + 1) * 256 ^ xs.length := by ring
      _ ≤ 256 * 256 ^ xs.length := Nat.mul_le_mul_right _ (by omega)
      _ = 256 ^ (x :: xs).length := by rw [List.length_cons]; ring

theorem lex_lt_iff_beVal {a : Bytes} : ∀ {b : Bytes}, a.length = b.length →
    (∀ x ∈ a, x < 256) → (∀ x ∈ b, x < 256) → (a < b ↔ beVal a < beVal b) := by
  induction a with
  | nil =>
    intro b hlen _ _
    cases b with
    | nil => simp [lt_irrefl]
    | cons y ys => simp at hlen
  | cons x xs ih =>
    intro b hlen ha hb
    cases b with
    | nil => simp at hlen
    | cons y ys =>
      have hl : xs.length = ys.length := by simpa using hlen
      have hx : x < 256 := ha x (by simp)
      have hy : y < 256 := hb y (by simp)
      have hxs : ∀ z ∈ xs, z < 256 := fun z hz => ha z (by simp [hz])
      have hys : ∀ z ∈ ys, z < 256 := fun z hz => hb z (by simp [hz])
      have hvx : beVal xs < 256 ^ ys.length := hl ▸ beVal_lt_of_bytes hxs
      have hvy : beVal ys < 256 ^ ys.length := beVal_lt_of_bytes hys
      rw [lex_cons_lt_cons, beVal_cons, beVal_cons, hl]
      constructor
      · rintro (h | ⟨rfl, h⟩)
        · calc x * 256 ^ ys.length + beVal xs
              < x * 256 ^ ys.length + 256 ^ ys.length := by omega
            _ = (x + 1) * 256 ^ ys.length := by ring
            _ ≤ y * 256 ^ ys.length := Nat.mul_le_mul_right _ (by omega)
            _ ≤ y * 256 ^ ys.length + beVal ys := Nat.le_add_right _ _
        · exact Nat.add_lt_add_left ((ih hl hxs hys).mp h) _
      · intro h
        rcases lt_trichotomy x y with hxy | rfl | hyx
        · exact Or.inl hxy
        · exact Or.inr ⟨rfl, (ih hl hxs hys).mpr (by omega)⟩
        · exfalso
          have h2 : y * 256 ^ ys.length + beVal ys
              < x * 256 ^ ys.length + beVal xs := by
            calc y * 256 ^ ys.length + beVal ys
                < y * 256 ^ ys.length + 256 ^ ys.length := by omega
              _ = (y + 1) * 256 ^ ys.length := by ring
              _ ≤ x * 256 ^ ys.length := Nat.mul_le_mul_right _ (by omega)
              _ ≤ x * 256 ^ ys.length + beVal xs := Nat.le_add_right _ _
          omega

theorem lex_le_iff_beVal {a b : Bytes} (hlen : a.length = b.length)
    (ha : ∀ x ∈ a, x < 256) (hb : ∀ x ∈ b, x < 256) :
    a ≤ b ↔ beVal a ≤ beVal b := by
  rw [← not_lt, ← not_lt, lex_lt_iff_beVal hlen.symm hb ha]

theorem lex_eq_of_beVal {a b : Bytes} (hlen : a.length = b.length)
    (ha : ∀ x ∈ a, x < 256) (hb : ∀ x ∈ b, x < 256)
    (h : beVal a = beVal b) : a = b := by
  rcases lt_trichotomy a b with hlt | heq | hgt
  · exact absurd ((lex_lt_iff_beVal hlen ha hb).mp hlt) (by omega)
  · exact heq
  · exact absurd ((lex_lt_iff_beVal hlen.symm hb ha).mp hgt) (by omega)

theorem seekForward_none {db : Finset Bytes} {k : Bytes}
    (h : seekForward db k = none) : ∀ x ∈ db, ¬ k ≤ x := by
  intro x hx hkx
  unfold seekForward at h
  rw [dif_pos ⟨x, Finset.mem_filter.mpr ⟨hx, hkx⟩⟩] at h
  exact Option.noConfusion h

theorem seekForward_some {db : Finset Bytes} {k s : Bytes}
    (h : seekForward db k = some s) :
    s ∈ db ∧ k ≤ s ∧ ∀ x ∈ db, k ≤ x → s ≤ x := by
  unfold seekForward at h
  by_cases hne : (db.filter (fun x => k ≤ x)).Nonempty
  · rw [dif_pos hne] at h
    have hs := Option.some.inj h
    have hmem := Finset.mem_filter.mp (hs ▸ Finset.min'_mem _ hne)
    refine ⟨hmem.1, hmem.2, fun x hx hkx => ?_⟩
    exact hs ▸ Finset.min'_le _ x (Finset.mem_filter.mpr ⟨hx, hkx⟩)
  · rw [dif_neg hne] at h
    exact Option.noConfusion h

theorem seekReverse_none {db : Finset Bytes} {k : Bytes}
    (h : seekReverse db k = none) : ∀ x ∈ db, ¬ x ≤ k := by
  intro x hx hxk
  unfold seekReverse at h
  rw [dif_pos ⟨x, Finset.mem_filter.mpr ⟨hx, hxk⟩⟩] at h
  exact Option.noConfusion h

theorem seekReverse_some {db : Finset Bytes} {k e : Bytes}
    (h : seekReverse db k = some e) :
    e ∈ db ∧ e ≤ k ∧ ∀ x ∈ db, x ≤ k → x ≤ e := by
  unfold seekReverse at h
  by_cases hne : (db.filter (fun x => x ≤ k)).Nonempty
  · rw [dif_pos hne] at h
    have hs := Option.some.inj h
    have hmem := Finset.mem_filter.mp (hs ▸ Finset.max'_mem _ hne)
    refine ⟨hmem.1, hmem.2, fun x hx hxk => ?_⟩
    have hx2 : x ∈ db.filter (fun y => y ≤ k) := Finset.mem_filter.mpr ⟨hx, hxk⟩
    exact hs ▸ Finset.le_max' _ x hx2
  · rw [dif_neg hne] at h
    exact Option.noConfusion h

theorem seekReverse_isSome {db : Finset Bytes} {k x : Bytes}
    (hx : x ∈ db) (hxk : x ≤ k) : ∃ e, seekReverse db k = some e := by
  unfold seekReverse
  have hne : (db.filter (fun y => y ≤ k)).Nonempty :=
    ⟨x, Finset.mem_filter.mpr ⟨hx, hxk⟩⟩
  rw [dif_pos hne]
  exact ⟨_, rfl⟩

theorem pfx_bytes (fl nh : Nat) (hfl : fl < 256) :
    ∀ x ∈ (fl :: beBytes 8 nh : Bytes), x < 256 := by
  intro x hx
  rcases List.mem_cons.mp hx with rfl | hx
  · exact hfl
  · exact beBytes_mem_lt 8 nh x hx

theorem beVal_flnh (fl nh : Nat) (h : nh < 18446744073709551616) :
    beVal (fl :: beBytes 8 nh) = fl * 18446744073709551616 + nh := by
  rw [beVal_cons, beBytes_length, beVal_beBytes]
  have h2 : (256 : Nat) ^ 8 = 18446744073709551616 := by norm_num
  rw [h2, Nat.mod_eq_of_lt h]

theorem pfx_le_of_take {fl nh : Nat} {k : Bytes}
    (hk : k.take 9 = fl :: beBytes 8 nh) : (fl :: beBytes 8 nh : Bytes) ≤ k := by
  have h := List.take_append_drop 9 k
  rw [hk] at h
  exact h ▸ lex_self_append_le _ _

theorem pfx_lt_nxt {fl nh : Nat} (hfl : fl < 256)
    (hnh : nh + 1 < 18446744073709551616) :
    (fl :: beBytes 8 nh : Bytes) < fl :: beBytes 8 (nh + 1) := by
  have hlen : (fl :: beBytes 8 nh : Bytes).length
      = (fl :: beBytes 8 (nh + 1) : Bytes).length := by
    simp [beBytes_length]
  rw [lex_lt_iff_beVal hlen (pfx_bytes fl nh hfl) (pfx_bytes fl (nh + 1) hfl),
    beVal_flnh fl nh (by omega), beVal_flnh fl (nh + 1) hnh]
  omega

theorem lt_nxt_of_take {fl nh : Nat} (hfl : fl < 256)
    (hnh : nh + 1 < 18446744073709551616) {k : Bytes}
    (hk : k.take 9 = fl :: beBytes 8 nh) : k < fl :: beBytes 8 (nh + 1) := by
  have h := List.take_append_drop 9 k
  rw [hk] at h
  have h2 := lex_append_lt (by simp [beBytes_length]) (pfx_lt_nxt hfl hnh)
    (k.drop 9) []
  rw [h] at h2
  simpa using h2

theorem take_eq_pfx_of_sandwich {fl nh : Nat} (hfl : fl < 256)
    (hnh : nh + 1 < 18446744073709551616) {e : Bytes}
    (hlen : 10 ≤ e.length) (hbe : ∀ x ∈ e, x < 256)
    (hpe : (fl :: beBytes 8 nh : Bytes) ≤ e)
    (hen : e ≤ fl :: beBytes 8 (nh + 1)) :
    e.take 9 = fl :: beBytes 8 nh := by
  have htlen : (e.take 9).length = 9 := by
    rw [List.length_take]
    omega
  have hsplit := List.take_append_drop 9 e
  have hdlen : (e.drop 9).length = e.length - 9 := List.length_drop 9 e
  have htb : ∀ x ∈ e.take 9, x < 256 := fun x hx => hbe x (List.take_subset 9 e hx)
  cases hd : e.drop 9 with
  | nil => rw [hd] at hdlen; simp at hdlen; omega
  | cons c ts =>
    rw [hd] at hsplit
    have hpe2 : (fl :: beBytes 8 nh : Bytes) ≤ e.take 9 := by
      rw [← hsplit] at hpe
      exact (lex_le_append_iff (by simp [beBytes_length]; omega) (c :: ts)).mp hpe
    have hen2 : e.take 9 < fl :: beBytes 8 (nh + 1) := by
      rw [← hsplit] at hen
      exact (lex_append_le_iff (by simp [beBytes_length]; omega) c ts).mp hen
    have hv1 : beVal (fl :: beBytes 8 nh) ≤ beVal (e.take 9) :=
      (lex_le_iff_beVal (by simp [beBytes_length]; omega)
        (pfx_bytes fl nh hfl) htb).mp hpe2
    have hv2 : beVal (e.take 9) < beVal (fl :: beBytes 8 (nh + 1)) :=
      (lex_lt_iff_beVal (by simp [beBytes_length]; omega) htb
        (pfx_bytes fl (nh + 1) hfl)).mp hen2
    rw [beVal_flnh fl nh (by omega)] at hv1
    rw [beVal_flnh fl (nh + 1) hnh] at hv2
    exact lex_eq_of_beVal (by simp [beBytes_length]; omega) htb
      (pfx_bytes fl nh hfl) (by rw [beVal_flnh fl nh (by omega)]; omega)

/-- **C9.** After `LodisData::remove` completes, no key of the store carries
the collection's 9-byte key space marker `fl :: beBytes 8 nh` (so a same-space
iterator yields nothing); moreover, whenever the collection has at least one
key, the reverse scan from the successor position `fl ‖ (nh+1)` (modular
64-bit addition on the name-hash portion) locates exactly the last key of the
collection, which `remove` then covers with `delete_range(start_key, end_key)`
plus `delete(end_key)`.  Hypotheses: the type flag is one byte, the name hash
does not wrap at `2^64 - 1`, and every stored key is at least prefix + one
byte long with byte-valued entries. -/
theorem c9_remove_purges (fl nh : Nat) (db : Finset Bytes)
    (hfl : fl < 256) (hnh : nh + 1 < 18446744073709551616)
    (hdb : ∀ k ∈ db, 10 ≤ k.length ∧ ∀ x ∈ k, x < 256) :
    (∀ k ∈ LodisData.remove fl nh db, ¬ k.take 9 = fl :: beBytes 8 nh) ∧
    (∀ k0 ∈ db, k0.take 9 = fl :: beBytes 8 nh →
      ∃ e, seekReverse db (fl :: beBytes 8 ((nh + 1) % 18446744073709551616))
          = some e ∧
        e ∈ db ∧ e.take 9 = fl :: beBytes 8 nh ∧
        ∀ k ∈ db, k.take 9 = fl :: beBytes 8 nh → k ≤ e) := by
  have hmod : (nh + 1) % 18446744073709551616 = nh + 1 := Nat.mod_eq_of_lt hnh
  constructor
  · intro k hk hkp
    have hple : (fl :: beBytes 8 nh : Bytes) ≤ k := pfx_le_of_take hkp
    have hklt : k < fl :: beBytes 8 (nh + 1) := lt_nxt_of_take hfl hnh hkp
    unfold LodisData.remove at hk
    rw [hmod] at hk
    split at hk
    · rename_i hF
      exact seekForward_none hF k hk hple
    · rename_i s hF
      obtain ⟨hsdb, hps, hsmin⟩ := seekForward_some hF
      split at hk
      · rename_i hsp
        have hsle : s ≤ fl :: beBytes 8 (nh + 1) :=
          le_trans (hsmin k hk hple) (le_of_lt hklt)
        exact hsp (take_eq_pfx_of_sandwich hfl hnh (hdb s hsdb).1 (hdb s hsdb).2
          hps hsle)
      · rename_i hsp
        split at hk
        · rename_i hR
          exact seekReverse_none hR k (Finset.mem_of_mem_erase hk) (le_of_lt hklt)
        · rename_i e hR
          obtain ⟨hedb, hen, hemax⟩ := seekReverse_some hR
          split at hk
          · rename_i hep
            have hkdb : k ∈ db := Finset.mem_of_mem_erase hk
            have hpe : (fl :: beBytes 8 nh : Bytes) ≤ e :=
              le_trans hple (hemax k hkdb (le_of_lt hklt))
            exact hep (take_eq_pfx_of_sandwich hfl hnh (hdb e hedb).1
              (hdb e hedb).2 hpe hen)
          · rename_i hep
            rw [Finset.mem_erase] at hk
            obtain ⟨hke, hk2⟩ := hk
            split at hk2
            · rename_i hse
              rw [Finset.mem_filter] at hk2
              obtain ⟨hkdb, hknot⟩ := hk2
              have hkle : k ≤ e := hemax k hkdb (le_of_lt hklt)
              exact hknot ⟨hsmin k hkdb hple, lt_of_le_of_ne hkle hke⟩
            · rename_i hse
              have hse2 : s = e := not_not.mp hse
              have hkle : k ≤ e := hemax k hk2 (le_of_lt hklt)
              have hsk : s ≤ k := hsmin k hk2 hple
              exact hke (le_antisymm hkle (hse2 ▸ hsk))
  · intro k0 hk0 hk0p
    have hk0le : k0 ≤ fl :: beBytes 8 ((nh + 1) % 18446744073709551616) := by
      rw [hmod]
      exact le_of_lt (lt_nxt_of_take hfl hnh hk0p)
    obtain ⟨e, hR⟩ := seekReverse_isSome hk0 hk0le
    obtain ⟨hedb, hen, hemax⟩ := seekReverse_some hR
    rw [hmod] at hen
    have hpe : (fl :: beBytes 8 nh : Bytes) ≤ e :=
      le_trans (pfx_le_of_take hk0p) (hemax k0 hk0 hk0le)
    refine ⟨e, hR, hedb, take_eq_pfx_of_sandwich hfl hnh (hdb e hedb).1
      (hdb e hedb).2 hpe hen, fun k hk hkp => hemax k hk ?_⟩
    rw [hmod]
    exact le_of_lt (lt_nxt_of_take hfl hnh hkp)

/-- A small concrete store for the C9 witness: two keys of the collection
`fl = 1, nh = 5` (one element key and one metadata-like key) and two keys of
other collections. -/
def c9Db : Finset Bytes :=
  {[1, 0, 0, 0, 0, 0, 0, 0, 5, 104], [1, 0, 0, 0, 0, 0, 0, 0, 5, 1, 2],
   [0, 9, 0, 0, 0, 0, 0, 0, 0, 0], [2, 0, 0, 0, 0, 0, 0, 0, 9, 3]}

/-- Witness for C9 on `c9Db`. -/
theorem c9_remove_purges_witness :
    ((1 : Nat) < 256 ∧ (5 : Nat) + 1 < 18446744073709551616 ∧
      (∀ k ∈ c9Db, 10 ≤ k.length ∧ ∀ x ∈ k, x < 256)) ∧
    ((∀ k ∈ LodisData.remove 1 5 c9Db, ¬ k.take 9 = 1 :: beBytes 8 5) ∧
      (∀ k0 ∈ c9Db, k0.take 9 = 1 :: beBytes 8 5 →
        ∃ e, seekReverse c9Db (1 :: beBytes 8 ((5 + 1) % 18446744073709551616))
            = some e ∧
          e ∈ c9Db ∧ e.take 9 = 1 :: beBytes 8 5 ∧
          ∀ k ∈ c9Db, k.take 9 = 1 :: beBytes 8 5 → k ≤ e)) :=
  ⟨⟨by decide, by decide, by decide⟩,
   c9_remove_purges 1 5 c9Db (by decide) (by decide) (by decide)⟩
